import Mathlib

/-!
Verification development for libentrylogger (src/src/entrylogger.c,
src/src/entrylogger.h): a shallow embedding of the EntryLogger document
(ELD) codec and row engine, plus theorems about the embedded operations.

Modelling conventions.
* Machine integers are natural numbers with explicit reductions where the C
  arithmetic can wrap: uint8_t counters reduce mod 256, uint16_t lengths mod
  65536, uint32_t row counts mod 4294967296.
* Struct layout constants follow the packed on-disk layout of the structs in
  entrylogger.h, which is the layout the ELD format defines: the header block
  (eld_header_t) is 3+2+2+1+1+4+2 = 15 bytes and a field descriptor
  (el_field_def_t) is 1+2+21 = 24 bytes.  sizeof(long) is 4, as on the
  16-bit and 32-bit targets the library was written for (entrylog.h even
  typedefs int32_t as long for MSDOS).  sizeof(float) is 4.
* The byte order of the host is modelled as little endian; no theorem below
  depends on the choice, only on encode/decode being mutually inverse, which
  matches fwrite/fread of the same in-memory object.
* A float cell is modelled by its 32-bit pattern (a natural number below
  2^32); the codec only moves the 4 object bytes, so no floating point
  arithmetic is involved.
* The stdio file system is modelled as a single file: a byte list, a
  current position, an existence flag and an end-of-file flag.  fopen modes
  used by the library are "rb", "r+b", "wb" and "a+b"; in append mode every
  write lands at end of file (POSIX append semantics).  I/O primitives do
  not fail spuriously in the model: the failures that remain are exactly the
  ones the code can detect (missing file, already-open handle, short read).
* The process-wide error sink keeps the last message in structured form:
  each constructor records the arguments the C code passes to
  el_error_msg_format for that message.
-/

namespace ELD

/-! ## Byte-level scalar codec (fwrite/fread of 2-, 4-byte objects) -/

/-- Little-endian bytes of a uint16_t object. -/
def encU16 (n : ℕ) : List ℕ := [n % 256, n / 256 % 256]

/-- Little-endian bytes of a uint32_t object. -/
def encU32 (n : ℕ) : List ℕ := [n % 256, n / 256 % 256, n / 65536 % 256, n / 16777216 % 256]

/-- Bytes of a 4-byte long object holding the two's-complement of z. -/
def encI32 (z : ℤ) : List ℕ := encU32 (z % 4294967296).toNat

/-- Value of a uint16_t object read back from bytes. -/
def decU16 (l : List ℕ) : ℕ := l.getD 0 0 + 256 * l.getD 1 0

/-- Value of a uint32_t object read back from bytes. -/
def decU32 (l : List ℕ) : ℕ :=
  l.getD 0 0 + 256 * l.getD 1 0 + 65536 * l.getD 2 0 + 16777216 * l.getD 3 0

/-- Signed value of a 4-byte long object read back from bytes. -/
def decI32 (l : List ℕ) : ℤ :=
  let n := decU32 l
  if n < 2147483648 then (n : ℤ) else (n : ℤ) - 4294967296

/-! ## Layout constants (packed layout of entrylogger.h) -/

/-- EL_FIELD_NAME_LEN from entrylogger.h (the default, non-MSDOS header). -/
def EL_FIELD_NAME_LEN : ℕ := 20

/-- EL_FIELD_NAME_LEN from entrylog.h (the Borland-C / MSDOS header). -/
def EL_FIELD_NAME_LEN_DOS : ℕ := 19

/-- Packed sizeof(eld_header_t): 3 magic + 2 header_len + 2 row_len +
1 field_desc_len + 1 field_desc_count + 4 row_count + 2 marker. -/
def sizeof_eld_header_t : ℕ := 15

/-- Packed sizeof(el_field_def_t): 1 type + 2 size_bytes + 21 name. -/
def sizeof_el_field_def_t : ℕ := 24

/-- sizeof(long) on the format's targets (4; entrylog.h typedefs int32_t as long). -/
def sizeof_long : ℕ := 4

/-- sizeof(float). -/
def sizeof_float : ℕ := 4

/-! ## Data model (entrylogger.h structs) -/

/-- el_err_t status codes. -/
inductive el_err_t where
  | EL_OK
  | EL_ERROR_FILE
  | EL_ERROR_UNKNOWN
  | EL_ERROR_NOT_IMPL
deriving DecidableEq, Repr

/-- el_type_t field types. -/
inductive el_type_t where
  | EL_FIELD_INT
  | EL_FIELD_FLOAT
  | EL_FIELD_STRING
deriving DecidableEq, Repr

/-- The uint8_t value of an el_type_t (the C enum values 0, 1, 2). -/
def el_type_t.toUint8 : el_type_t → ℕ
  | .EL_FIELD_INT => 0
  | .EL_FIELD_FLOAT => 1
  | .EL_FIELD_STRING => 2

/-- The IF_EL_ERROR macro: err > EL_OK, i.e. any non-OK status. -/
def if_el_error (e : el_err_t) : Bool :=
  match e with
  | .EL_OK => false
  | _ => true

/-- el_field_def_t: type tag (uint8_t), cell width (uint16_t) and the
21-byte name buffer, kept as a byte list of length 21. -/
structure el_field_def_t where
  type : ℕ
  size_bytes : ℕ
  name : List ℕ
deriving DecidableEq, Repr

/-- The value member of el_cell_t.  The C union is discriminated here by the
variant actually stored: a long, a float (kept as its 32-bit pattern), or
the heap buffer a char pointer points at. -/
inductive el_value where
  | integer (z : ℤ)
  | number (bits : ℕ)
  | string (buf : List ℕ)
deriving DecidableEq, Repr

/-- el_cell_t: the borrowed field descriptor plus the union value.  The C
cell holds a pointer into the handle's descriptor table; the model stores
the descriptor value itself. -/
structure el_cell_t where
  field : el_field_def_t
  value : el_value
deriving DecidableEq, Repr

/-- el_row_t. -/
structure el_row_t where
  index : ℕ
  cell_count : ℕ
  cells : List el_cell_t
deriving DecidableEq, Repr

/-- eld_header_t (packed, 15 bytes on disk). -/
structure eld_header_t where
  magic : List ℕ
  header_len : ℕ
  row_len : ℕ
  field_desc_len : ℕ
  field_desc_count : ℕ
  row_count : ℕ
  marker : List ℕ
deriving DecidableEq, Repr

/-- File opening mode, as set from the fopen mode strings the library uses
("rb", "r+b", "wb", "a+b"); fmUnset is the zeroed fmode of a fresh handle. -/
inductive FMode where
  | fmUnset
  | rb
  | rpb
  | wb
  | apb
deriving DecidableEq, Repr

/-- eld_handle_t: open-file flag, last mode string, parsed header and the
owned descriptor table (none models a NULL field_defs pointer). -/
structure eld_handle_t where
  fh_open : Bool
  fmode : FMode
  header : eld_header_t
  field_defs : Option (List el_field_def_t)
deriving DecidableEq, Repr

/-- The structured form of the last error message: each constructor carries
the arguments the C code formats into the corresponding message string. -/
inductive ElErrorMsg where
  | alreadyOpen
  | openFailed
  | indexOutOfRange (index : ℕ) (rowCount : ℕ)
  | eofInCell (cell : ℕ) (row : ℕ)
deriving DecidableEq, Repr

/-- The whole observable state: the document handle, the single modelled
file (contents, position, existence, EOF indicator), the process-wide error
sink, and a counter of fread calls performed. -/
structure ElState where
  doc : eld_handle_t
  file : List ℕ
  filePos : ℕ
  fileExists : Bool
  eofFlag : Bool
  errMsg : Option ElErrorMsg
  reads : ℕ
deriving DecidableEq, Repr

/-- Record an error message in the process-wide sink (el_error_msg_set /
el_error_msg_format). -/
def setErr (st : ElState) (m : ElErrorMsg) : ElState := { st with errMsg := some m }

/-! ## File primitives -/

/-- Overwrite bytes of contents c at position p (the effect of fwrite in a
non-append mode); a position beyond end of file produces a zero-filled gap,
and writing past the end extends the file. -/
def listOverwrite (c : List ℕ) (p : ℕ) (b : List ℕ) : List ℕ :=
  c.take p ++ List.replicate (p - c.length) 0 ++ b ++ c.drop (p + b.length)

/-- fwrite of a byte list: appends at end of file in append mode, otherwise
overwrites at the current position and advances it. -/
def fwriteBytes (st : ElState) (b : List ℕ) : ElState :=
  if st.doc.fmode = FMode.apb then
    { st with file := st.file ++ b, filePos := (st.file ++ b).length }
  else
    { st with file := listOverwrite st.file st.filePos b, filePos := st.filePos + b.length }

/-- fread of n bytes: returns the bytes available at the current position,
advances the position by the amount actually read, and raises the EOF
indicator exactly when fewer than n bytes were available. -/
def freadBytes (st : ElState) (n : ℕ) : List ℕ × ElState :=
  let b := (st.file.drop st.filePos).take n
  (b, { st with
          filePos := st.filePos + b.length
          eofFlag := decide (b.length < n)
          reads := st.reads + 1 })

/-! ## Document operations (entrylogger.c) -/

/-- el_util_calc_header_len: header_len := sizeof(el_field_def_t) *
field_desc_count + sizeof(eld_header_t), as a uint16_t. -/
def el_util_calc_header_len (doc : eld_handle_t) : eld_handle_t :=
  { doc with header.header_len :=
      (sizeof_el_field_def_t * doc.header.field_desc_count + sizeof_eld_header_t) % 65536 }

/-- el_util_calc_row_len: with a NULL descriptor table both row_len and
row_count are reset to 0; otherwise row_len is the uint16_t sum of the
descriptor sizes (the C loop runs over field_desc_count entries). -/
def el_util_calc_row_len (doc : eld_handle_t) : eld_handle_t :=
  match doc.field_defs with
  | none => { doc with header.row_len := 0, header.row_count := 0 }
  | some defs =>
      { doc with header.row_len :=
          (((defs.take doc.header.field_desc_count).map (fun f => f.size_bytes)).sum) % 65536 }

/-- el_doc_new: fresh handle with magic "ELD", marker "--", a zeroed mode
string, no file, no descriptors, and the two lengths recalculated. -/
def el_doc_new : eld_handle_t :=
  el_util_calc_row_len (el_util_calc_header_len
    { fh_open := false
      fmode := FMode.fmUnset
      header :=
        { magic := [69, 76, 68]
          header_len := 0
          row_len := 0
          field_desc_len := sizeof_el_field_def_t
          field_desc_count := 0
          row_count := 0
          marker := [45, 45] }
      field_defs := none })

/-- el_util_sizeof: sizeof(long) for INT, sizeof(float) for FLOAT,
sizeof(char) for STRING. -/
def el_util_sizeof (type : el_type_t) : ℕ :=
  match type with
  | .EL_FIELD_INT => sizeof_long
  | .EL_FIELD_FLOAT => sizeof_float
  | .EL_FIELD_STRING => 1

/-- el_field_def_new: size_bytes := el_util_sizeof(type) * length (one more
el_util_sizeof(type) for strings), all in uint16_t arithmetic; the name
buffer is zeroed over EL_FIELD_NAME_LEN + 1 bytes and then strncpy copies at
most EL_FIELD_NAME_LEN bytes of the argument (strncpy stops at the first NUL
of the argument, modelled by takeWhile). -/
def el_field_def_new (type : el_type_t) (name : List ℕ) (length : ℕ) : el_field_def_t :=
  { type := type.toUint8
    size_bytes :=
      (el_util_sizeof type * length +
        if type.toUint8 = 2 then el_util_sizeof type else 0) % 65536
    name := List.takeD (EL_FIELD_NAME_LEN + 1)
      ((name.takeWhile (fun b => b ≠ 0)).take EL_FIELD_NAME_LEN) 0 }

/-- el_doc_fopen: fails if a file is already open; otherwise stores the mode
and opens the file ("rb"/"r+b" need the file to exist, "wb" truncates or
creates, "a+b" creates if missing; opening clears the EOF indicator and
rewinds; a zeroed mode string cannot open anything). -/
def el_doc_fopen (st : ElState) (mode : FMode) : el_err_t × ElState :=
  if st.doc.fh_open then
    (el_err_t.EL_ERROR_FILE, setErr st ElErrorMsg.alreadyOpen)
  else
    let st1 := { st with doc.fmode := mode }
    match mode with
    | FMode.rb =>
        if st1.fileExists then
          (el_err_t.EL_OK, { st1 with doc.fh_open := true, filePos := 0, eofFlag := false })
        else (el_err_t.EL_ERROR_FILE, setErr st1 ElErrorMsg.openFailed)
    | FMode.rpb =>
        if st1.fileExists then
          (el_err_t.EL_OK, { st1 with doc.fh_open := true, filePos := 0, eofFlag := false })
        else (el_err_t.EL_ERROR_FILE, setErr st1 ElErrorMsg.openFailed)
    | FMode.wb =>
        (el_err_t.EL_OK,
          { st1 with doc.fh_open := true, file := [], fileExists := true,
                     filePos := 0, eofFlag := false })
    | FMode.apb =>
        (el_err_t.EL_OK,
          { st1 with doc.fh_open := true,
                     file := if st1.fileExists then st1.file else [],
                     fileExists := true, filePos := 0, eofFlag := false })
    | FMode.fmUnset => (el_err_t.EL_ERROR_FILE, setErr st1 ElErrorMsg.openFailed)

/-- el_doc_fclose: closing a handle with no open file is a no-op; fclose
itself does not fail in the model. -/
def el_doc_fclose (st : ElState) : el_err_t × ElState :=
  if st.doc.fh_open then (el_err_t.EL_OK, { st with doc.fh_open := false })
  else (el_err_t.EL_OK, st)

/-- Bytes fwrite(&header, sizeof(eld_header_t), 1, fh) pushes to the file:
the packed 15-byte header block. -/
def encHeader (h : eld_header_t) : List ℕ :=
  h.magic.takeD 3 0 ++ encU16 h.header_len ++ encU16 h.row_len ++
    [h.field_desc_len % 256] ++ [h.field_desc_count % 256] ++
    encU32 h.row_count ++ h.marker.takeD 2 0

/-- Header parsed back from the first 15 file bytes by fread. -/
def decHeader (b : List ℕ) : eld_header_t :=
  { magic := b.take 3
    header_len := decU16 (b.drop 3)
    row_len := decU16 (b.drop 5)
    field_desc_len := b.getD 7 0
    field_desc_count := b.getD 8 0
    row_count := decU32 (b.drop 9)
    marker := (b.drop 13).take 2 }

/-- Bytes of one packed el_field_def_t entry (24 bytes). -/
def encFieldDef (f : el_field_def_t) : List ℕ :=
  [f.type % 256] ++ encU16 f.size_bytes ++ f.name.takeD 21 0

/-- Field descriptor parsed back from a 24-byte table entry. -/
def decFieldDef (b : List ℕ) : el_field_def_t :=
  { type := b.getD 0 0
    size_bytes := decU16 (b.drop 1)
    name := (b.drop 3).take 21 }

/-- The descriptor-table bytes el_doc_save writes: field_desc_count packed
entries taken from the table. -/
def descTableBytes (doc : eld_handle_t) : List ℕ :=
  (((doc.field_defs.getD []).take doc.header.field_desc_count).map encFieldDef).flatten

/-- el_doc_save: open "r+b", falling back to "wb" when that fails; write the
header block and the descriptor table at the start of the file; close.  The
row region past the rewritten prefix is never truncated on the "r+b" path. -/
def el_doc_save (st : ElState) : el_err_t × ElState :=
  let p1 := el_doc_fopen st FMode.rpb
  let p2 := if if_el_error p1.1 then el_doc_fopen p1.2 FMode.wb else p1
  if if_el_error p2.1 then p2
  else
    let st1 := fwriteBytes p2.2 (encHeader p2.2.doc.header)
    let st2 := fwriteBytes st1 (descTableBytes st1.doc)
    el_doc_fclose st2

/-- el_doc_header_read: fread the 15 header bytes into the header struct
(bytes beyond a short read are modelled as zero), then allocate and fread
field_desc_count descriptor entries; always returns EL_OK. -/
def el_doc_header_read (st : ElState) : el_err_t × ElState :=
  let p := freadBytes st sizeof_eld_header_t
  let h := decHeader (p.1.takeD sizeof_eld_header_t 0)
  let st1 := { p.2 with doc.header := h }
  let q := freadBytes st1 (sizeof_el_field_def_t * h.field_desc_count)
  let defs := (List.range h.field_desc_count).map
    (fun i => decFieldDef ((q.1.drop (sizeof_el_field_def_t * i)).takeD sizeof_el_field_def_t 0))
  (el_err_t.EL_OK, { q.2 with doc.field_defs := some defs })

/-- el_doc_read: open "rb", parse header and definitions, close.  Error
paths return without closing, exactly as in the C code. -/
def el_doc_read (st : ElState) : el_err_t × ElState :=
  let p := el_doc_fopen st FMode.rb
  if if_el_error p.1 then p
  else
    let q := el_doc_header_read p.2
    if if_el_error q.1 then q
    else el_doc_fclose q.2

/-- el_doc_field_add: unconditionally grow the table by one (uint8_t count),
copy the field into the last slot, and recalculate both lengths.  There is
no row_count check; the wrap of the uint8_t count at 256 (whose C behaviour
is an out-of-bounds store) is modelled by the take. -/
def el_doc_field_add (st : ElState) (field : el_field_def_t) : el_err_t × ElState :=
  let newCount := (st.doc.header.field_desc_count + 1) % 256
  let defs1 := ((st.doc.field_defs.getD []) ++ [field]).take newCount
  let doc1 := { st.doc with header.field_desc_count := newCount, field_defs := some defs1 }
  (el_err_t.EL_OK, { st with doc := el_util_calc_row_len (el_util_calc_header_len doc1) })

/-! ## Cell codec and row operations -/

/-- Bytes of the 4-byte union object read as a scalar (the long and float
members share storage; reading the pointer member as raw bytes is undefined
behaviour in C and modelled as zeros, it is never exercised below). -/
def el_value_scalar_bytes (v : el_value) : List ℕ :=
  match v with
  | .integer z => encI32 z
  | .number bits => encU32 bits
  | .string _ => List.replicate 4 0

/-- Bytes one cell contributes in el_doc_row_write: fwrite of size_bytes
bytes from the union member the descriptor type selects; a type outside the
switch writes nothing. -/
def el_cell_write_bytes (c : el_cell_t) : List ℕ :=
  match c.field.type, c.value with
  | 0, v => (el_value_scalar_bytes v).takeD c.field.size_bytes 0
  | 1, v => (el_value_scalar_bytes v).takeD c.field.size_bytes 0
  | 2, .string buf => buf.takeD c.field.size_bytes 0
  | 2, _ => List.replicate c.field.size_bytes 0
  | _, _ => []

/-- Value of a cell after el_row_read freads size_bytes bytes into it: the
scalar members take the 4 object bytes (unfilled bytes of a short read are
modelled as zero, matching the zeroed fresh cell), the string member takes
the whole zero-padded buffer; a type outside the switch leaves the old
value. -/
def el_cell_read_value (f : el_field_def_t) (old : el_value) (b : List ℕ) : el_value :=
  match f.type with
  | 0 => el_value.integer (decI32 (b.takeD 4 0))
  | 1 => el_value.number (decU32 (b.takeD 4 0))
  | 2 => el_value.string (b.takeD f.size_bytes 0)
  | _ => old

/-- el_row_new: index is the current row_count, cell_count the descriptor
count; each cell borrows its descriptor and STRING cells get a zeroed buffer
of size_bytes bytes (scalar cells are uninitialised in C, modelled as 0). -/
def el_row_new (doc : eld_handle_t) : el_row_t :=
  { index := doc.header.row_count
    cell_count := doc.header.field_desc_count
    cells := ((doc.field_defs.getD []).take doc.header.field_desc_count).map
      (fun f =>
        { field := f
          value :=
            if f.type = 2 then el_value.string (List.replicate f.size_bytes 0)
            else el_value.integer 0 }) }

/-- el_row_seek: fseek from the start of the file to header_len + row_len *
index.  The C offset is a long; its arithmetic is modelled exactly (the
32-bit overflow would be undefined behaviour in C).  fseek clears the EOF
indicator and cannot fail on the modelled file, so the function always
returns true. -/
def el_row_seek (st : ElState) (index : ℕ) : Bool × ElState :=
  let offset := st.doc.header.header_len + st.doc.header.row_len * index
  (true, { st with filePos := offset, eofFlag := false })

/-- The cell loop of el_row_read: fread size_bytes bytes into each cell in
order, failing with the EOF message (naming the cell and row indices) as
soon as a read comes up short.  ferror cannot occur on the modelled file. -/
def el_row_read_cells (st : ElState) (cells : List el_cell_t) (rowIndex cellIdx : ℕ) :
    el_err_t × ElState × List el_cell_t :=
  match cells with
  | [] => (el_err_t.EL_OK, st, [])
  | c :: rest =>
      let p := freadBytes st c.field.size_bytes
      let c2 : el_cell_t := { c with value := el_cell_read_value c.field c.value p.1 }
      if p.2.eofFlag then
        (el_err_t.EL_ERROR_FILE, setErr p.2 (ElErrorMsg.eofInCell cellIdx rowIndex), c2 :: rest)
      else
        let q := el_row_read_cells p.2 rest rowIndex (cellIdx + 1)
        (q.1, q.2.1, c2 :: q.2.2)

/-- el_row_read: open "rb", seek to the row, read the cells, close.  Error
paths return without closing, exactly as in the C code. -/
def el_row_read (st : ElState) (row : el_row_t) (index : ℕ) :
    el_err_t × ElState × el_row_t :=
  let p := el_doc_fopen st FMode.rb
  if if_el_error p.1 then (p.1, p.2, row)
  else
    let sk := el_row_seek p.2 index
    if sk.1 = false then (el_err_t.EL_ERROR_FILE, sk.2, row)
    else
      let q := el_row_read_cells sk.2 (row.cells.take row.cell_count) index 0
      let row2 := { row with cells := q.2.2 ++ row.cells.drop row.cell_count }
      if if_el_error q.1 then (q.1, q.2.1, row2)
      else
        let r := el_doc_fclose q.2.1
        (r.1, r.2, row2)

/-- el_row_get: reject an index at or past row_count with the bounds message
(naming the index and the row count) before touching the file; otherwise
build a fresh row, set its index and populate it from the file (the row is
freed and NULL returned if that fails). -/
def el_row_get (st : ElState) (index : ℕ) : Option el_row_t × ElState :=
  if index ≥ st.doc.header.row_count then
    (none, setErr st (ElErrorMsg.indexOutOfRange index st.doc.header.row_count))
  else
    let row := { el_row_new st.doc with index := index }
    let q := el_row_read st row index
    if if_el_error q.1 then (none, q.2.1)
    else (some q.2.2, q.2.1)

/-- The cell loop of el_doc_row_write: fwrite each cell in order.  ferror
cannot occur on the modelled file, so the loop always completes. -/
def el_doc_row_write_cells (st : ElState) (cells : List el_cell_t) : el_err_t × ElState :=
  match cells with
  | [] => (el_err_t.EL_OK, st)
  | c :: rest => el_doc_row_write_cells (fwriteBytes st (el_cell_write_bytes c)) rest

/-- el_doc_row_write: write the row's cells at the current position (the C
loop runs over cell_count cells of the cells array). -/
def el_doc_row_write (st : ElState) (row : el_row_t) : el_err_t × ElState :=
  el_doc_row_write_cells st (row.cells.take row.cell_count)

/-- el_doc_row_add: stamp the row with the current row_count and increment
the in-memory count (uint32_t) before any file operation; then save the
header, reopen in "a+b", write the row at end of file and close.  No error
path restores the incremented count. -/
def el_doc_row_add (st : ElState) (row : el_row_t) : el_err_t × ElState × el_row_t :=
  let row1 := { row with index := st.doc.header.row_count }
  let st1 := { st with doc.header.row_count := (st.doc.header.row_count + 1) % 4294967296 }
  let p := el_doc_save st1
  if if_el_error p.1 then (p.1, p.2, row1)
  else
    let q := el_doc_fopen p.2 FMode.apb
    if if_el_error q.1 then (q.1, q.2, row1)
    else
      let r := el_doc_row_write q.2 row1
      if if_el_error r.1 then (r.1, r.2, row1)
      else
        let s := el_doc_fclose r.2
        (s.1, s.2, row1)

/-- el_doc_row_update: reopen "r+b", seek to the row offset, overwrite the
row bytes in place, close.  The header is not rewritten. -/
def el_doc_row_update (st : ElState) (row : el_row_t) : el_err_t × ElState :=
  let p := el_doc_fopen st FMode.rpb
  if if_el_error p.1 then p
  else
    let sk := el_row_seek p.2 row.index
    if sk.1 = false then (el_err_t.EL_ERROR_FILE, sk.2)
    else
      let r := el_doc_row_write sk.2 row
      if if_el_error r.1 then r
      else el_doc_fclose r.2

/-! ## Operation sequences (for the handle-invariant claims) -/

/-- One supported document operation, with its argument. -/
inductive ElOp where
  | fieldAdd (f : el_field_def_t)
  | rowAdd (r : el_row_t)
  | rowUpdate (r : el_row_t)
  | docSave
  | docRead
  | getRow (i : ℕ)
deriving Repr

/-- Apply one operation to the state, keeping the resulting state. -/
def elStep (st : ElState) (op : ElOp) : ElState :=
  match op with
  | .fieldAdd f => (el_doc_field_add st f).2
  | .rowAdd r => (el_doc_row_add st r).2.1
  | .rowUpdate r => (el_doc_row_update st r).2
  | .docSave => (el_doc_save st).2
  | .docRead => (el_doc_read st).2
  | .getRow i => (el_row_get st i).2

/-- The state of a freshly created handle before any document file exists. -/
def elInitState : ElState :=
  { doc := el_doc_new
    file := []
    filePos := 0
    fileExists := false
    eofFlag := false
    errMsg := none
    reads := 0 }

/-- Run a sequence of supported operations on a fresh handle. -/
def elRun (ops : List ElOp) : ElState := ops.foldl elStep elInitState

/-! ## Well-formedness predicates used in theorem statements -/

/-- The bytes el_doc_row_write pushes to the file for a row. -/
def rowBytes (row : el_row_t) : List ℕ :=
  ((row.cells.take row.cell_count).map el_cell_write_bytes).flatten

/-- A descriptor the cell codec can round-trip: a valid type tag, with the
scalar types at their 4-byte object width (as el_field_def_new computes for
declared length 1). -/
def fieldCodecWF (f : el_field_def_t) : Bool :=
  decide ((f.type = 0 ∧ f.size_bytes = 4) ∨ (f.type = 1 ∧ f.size_bytes = 4) ∨ f.type = 2)

/-- A cell whose union value matches its descriptor type and is storable:
integers fit in the 4-byte long, float patterns in 32 bits, and a string
buffer is exactly the allocated size_bytes bytes. -/
def cellValueWF (c : el_cell_t) : Bool :=
  match c.field.type, c.value with
  | 0, .integer z => decide (-2147483648 ≤ z ∧ z < 2147483648)
  | 1, .number bits => decide (bits < 4294967296)
  | 2, .string buf => decide (buf.length = c.field.size_bytes)
  | _, _ => false

/-- A row that belongs to the document: correct cell count, cells borrowing
exactly the document's descriptors in order, and well-formed values. -/
def rowWF (doc : eld_handle_t) (row : el_row_t) : Bool :=
  decide (row.cell_count = row.cells.length) &&
  decide (row.cells.map (fun c => c.field) = doc.field_defs.getD []) &&
  row.cells.all cellValueWF

/-- The steady state of a closed, persisted document: the handle is closed,
the document file exists, the descriptor table has field_desc_count entries
the codec can handle, header_len and row_len satisfy the layout equations,
and the file size is header_len + row_len * row_count. -/
abbrev DocIOInv (st : ElState) : Prop :=
  st.doc.fh_open = false ∧
  st.fileExists = true ∧
  (st.doc.field_defs.getD []).length = st.doc.header.field_desc_count ∧
  ((st.doc.field_defs.getD []).all fieldCodecWF) = true ∧
  st.doc.header.header_len =
    sizeof_eld_header_t + sizeof_el_field_def_t * st.doc.header.field_desc_count ∧
  st.doc.header.row_len = (((st.doc.field_defs.getD []).map (fun f => f.size_bytes)).sum) ∧
  st.file.length =
    st.doc.header.header_len + st.doc.header.row_len * st.doc.header.row_count

/-- Append each row of a list in order with el_doc_row_add, keeping the
state (the test driver's add loop). -/
def el_doc_row_add_all (st : ElState) (rows : List el_row_t) : ElState :=
  rows.foldl (fun s r => (el_doc_row_add s r).2.1) st

/-! ## Handle invariants for operation sequences -/

/-- Range constraints the C types put on a header: the fixed-size character
arrays and the uint16_t/uint8_t/uint32_t fields. -/
abbrev HdrWF (h : eld_header_t) : Prop :=
  h.magic.length = 3 ∧ h.marker.length = 2 ∧ h.header_len < 65536 ∧ h.row_len < 65536 ∧
  h.field_desc_len < 256 ∧ h.field_desc_count < 256 ∧ h.row_count < 4294967296

/-- The header-length layout equation (property P2 of the specification),
together with the recorded descriptor width. -/
abbrev P2hdr (h : eld_header_t) : Prop :=
  h.field_desc_len = 24 ∧ h.header_len = 15 + 24 * h.field_desc_count

/-- In-memory handle invariant: well-typed header, layout equation, and a
descriptor table of exactly field_desc_count entries. -/
abbrev MemInv (doc : eld_handle_t) : Prop :=
  HdrWF doc.header ∧ P2hdr doc.header ∧
  (doc.field_defs.getD []).length = doc.header.field_desc_count

/-- On-disk invariant: if the document file exists it was produced by a save
of this library, so its first 15 bytes encode a header satisfying the layout
equation. -/
abbrev FileInv (st : ElState) : Prop :=
  st.fileExists = true →
    ∃ h, HdrWF h ∧ P2hdr h ∧ st.file.take 15 = encHeader h

/-- Invariant carried across every supported operation. -/
abbrev StInv (st : ElState) : Prop := MemInv st.doc ∧ FileInv st

/-! ## Concrete fixtures used by witnesses and counterexamples -/

/-- A 4-byte INT descriptor with an empty name. -/
def fldInt : el_field_def_t := el_field_def_new el_type_t.EL_FIELD_INT [] 1

/-- A persisted one-column document handle with no rows yet. -/
def doc1 : eld_handle_t :=
  { fh_open := false
    fmode := FMode.fmUnset
    header :=
      { magic := [69, 76, 68], header_len := 39, row_len := 4, field_desc_len := 24,
        field_desc_count := 1, row_count := 0, marker := [45, 45] }
    field_defs := some [fldInt] }

/-- The state of doc1 right after its 39-byte header+schema save. -/
def st39 : ElState :=
  { doc := doc1, file := List.replicate 39 0, filePos := 0, fileExists := true,
    eofFlag := false, errMsg := none, reads := 0 }

/-- A well-formed row for doc1 holding the integer 123. -/
def row123 : el_row_t :=
  { index := 0, cell_count := 1, cells := [{ field := fldInt, value := el_value.integer 123 }] }

/-- The state of doc1 with one 4-byte row already on disk (43 bytes). -/
def stRow1 : ElState :=
  { doc := { doc1 with header := { doc1.header with row_count := 1 } },
    file := List.replicate 43 0, filePos := 0, fileExists := true,
    eofFlag := false, errMsg := none, reads := 0 }

/-- A fresh handle pointed at an existing file whose magic bytes are
"XYZ" instead of "ELD" (an otherwise well-formed empty document). -/
def stBadMagic : ElState :=
  { doc := el_doc_new
    file := encHeader
      { magic := [88, 89, 90], header_len := 15, row_len := 0, field_desc_len := 24,
        field_desc_count := 0, row_count := 0, marker := [45, 45] }
    filePos := 0, fileExists := true, eofFlag := false, errMsg := none, reads := 0 }

/-- A fresh handle whose file handle was left open by the caller. -/
def stOpen : ElState :=
  { doc := { el_doc_new with fh_open := true }, file := [], filePos := 0,
    fileExists := false, eofFlag := false, errMsg := none, reads := 0 }

/-- A 4-byte file to read a single INT cell from. -/
def stFourBytes : ElState :=
  { doc := el_doc_new, file := [1, 2, 3, 4], filePos := 0, fileExists := true,
    eofFlag := false, errMsg := none, reads := 0 }

/-! ## Basic lemmas: codecs and file-byte surgery -/

theorem takeD_eq_self {α : Type} (d : α) :
    ∀ (l : List α) (n : ℕ), l.length = n → List.takeD n l d = l := by
  intro l
  induction l with
  | nil => intro n h; subst h; rfl
  | cons a t ih =>
      intro n h
      subst h
      simp only [List.length_cons, List.takeD_succ, List.head?_cons, Option.getD_some,
        List.tail_cons]
      rw [ih t.length rfl]

theorem take_append_len {α : Type} (A B : List α) (n : ℕ) (h : A.length = n) :
    (A ++ B).take n = A := by
  rw [← h, List.take_left]

theorem drop_append_len {α : Type} (A B : List α) (n : ℕ) (h : A.length = n) :
    (A ++ B).drop n = B := by
  rw [← h, List.drop_left]

theorem length_encHeader (h : eld_header_t) : (encHeader h).length = 15 := by
  rw [encHeader, encU16, encU16, encU32]
  simp only [List.length_append, List.length_cons, List.length_nil, List.takeD_length]

theorem length_encFieldDef (f : el_field_def_t) : (encFieldDef f).length = 24 := by
  rw [encFieldDef, encU16]
  simp only [List.length_append, List.length_cons, List.length_nil, List.takeD_length]

theorem decU16_encU16 (n : ℕ) : decU16 (encU16 n) = n % 65536 := by
  simp [decU16, encU16, List.getD]
  omega

theorem decU32_encU32 (n : ℕ) : decU32 (encU32 n) = n % 4294967296 := by
  simp [decU32, encU32, List.getD]
  omega

theorem decI32_encI32 (z : ℤ) (h1 : -2147483648 ≤ z) (h2 : z < 2147483648) :
    decI32 (encI32 z) = z := by
  have hr : decU32 (encU32 (z % 4294967296).toNat) = (z % 4294967296).toNat % 4294967296 := by
    simp [decU32, encU32, List.getD]
    omega
  simp only [decI32, encI32, hr]
  omega

theorem sum_map_length_encFieldDef :
    ∀ L : List el_field_def_t, ((L.map encFieldDef).map List.length).sum = 24 * L.length := by
  intro L
  induction L with
  | nil => rfl
  | cons f t ih =>
      simp only [List.map_cons, List.sum_cons, ih, length_encFieldDef, List.length_cons]
      ring

theorem descTableBytes_length (doc : eld_handle_t)
    (h : (doc.field_defs.getD []).length = doc.header.field_desc_count) :
    (descTableBytes doc).length = sizeof_el_field_def_t * doc.header.field_desc_count := by
  rw [descTableBytes, List.length_flatten, sum_map_length_encFieldDef, List.length_take, h,
    Nat.min_self]
  rfl

theorem descTableBytes_update_rc (doc : eld_handle_t) (n : ℕ) :
    descTableBytes { doc with header := { doc.header with row_count := n } } =
      descTableBytes doc := rfl

theorem listOverwrite_of_le (c : List ℕ) (p : ℕ) (b : List ℕ) (h : p ≤ c.length) :
    listOverwrite c p b = (c.take p ++ b) ++ c.drop (p + b.length) := by
  simp [listOverwrite, Nat.sub_eq_zero_of_le h]

theorem listOverwrite_length (c : List ℕ) (p : ℕ) (b : List ℕ)
    (h : p + b.length ≤ c.length) :
    (listOverwrite c p b).length = c.length := by
  rw [listOverwrite_of_le c p b (by omega)]
  simp [List.length_take, List.length_drop]
  omega

theorem listOverwrite_take (c : List ℕ) (p k : ℕ) (b : List ℕ)
    (hk : k ≤ p) (h : p ≤ c.length) :
    (listOverwrite c p b).take k = c.take k := by
  rw [listOverwrite_of_le c p b h]
  have h1 : (c.take p).length = p := by simp [List.length_take]; omega
  rw [List.append_assoc, List.take_append_of_le_length (by omega)]
  rw [List.take_take, Nat.min_eq_left hk]

theorem listOverwrite_drop (c : List ℕ) (p : ℕ) (b : List ℕ) (h : p ≤ c.length) :
    (listOverwrite c p b).drop (p + b.length) = c.drop (p + b.length) := by
  rw [listOverwrite_of_le c p b h]
  exact drop_append_len _ _ _ (by simp [List.length_take]; omega)

theorem listOverwrite_seg (c : List ℕ) (p : ℕ) (b : List ℕ) (h : p ≤ c.length) :
    ((listOverwrite c p b).drop p).take b.length = b := by
  rw [listOverwrite_of_le c p b h, List.append_assoc]
  rw [drop_append_len _ _ _ (by simp [List.length_take]; omega)]
  exact take_append_len _ _ _ rfl

theorem listOverwrite_compose (c : List ℕ) (p : ℕ) (b1 b2 : List ℕ)
    (h : p + b1.length + b2.length ≤ c.length) :
    listOverwrite (listOverwrite c p b1) (p + b1.length) b2 =
      listOverwrite c p (b1 ++ b2) := by
  have hp : p ≤ c.length := by omega
  have hA : (c.take p ++ b1).length = p + b1.length := by simp [List.length_take]; omega
  rw [listOverwrite_of_le c p b1 hp]
  rw [listOverwrite_of_le _ (p + b1.length) b2
    (by simp only [List.length_append, List.length_take, List.length_drop]; omega)]
  rw [listOverwrite_of_le c p (b1 ++ b2) hp]
  rw [take_append_len _ _ _ hA]
  have hd : ((c.take p ++ b1) ++ c.drop (p + b1.length)).drop (p + b1.length + b2.length) =
      c.drop (p + b1.length + b2.length) := by
    have e1 : p + b1.length + b2.length = (c.take p ++ b1).length + b2.length := by
      simp [List.length_take]
      omega
    conv_lhs => rw [e1, List.drop_append, List.drop_drop]
  rw [hd]
  simp [List.append_assoc, List.length_append, Nat.add_assoc]

theorem freadBytes_spec (st : ElState) (n : ℕ) (h : st.filePos + n ≤ st.file.length) :
    freadBytes st n =
      ((st.file.drop st.filePos).take n,
        { st with filePos := st.filePos + n, eofFlag := false, reads := st.reads + 1 }) := by
  have hlen : ((st.file.drop st.filePos).take n).length = n := by
    simp [List.length_take, List.length_drop]
    omega
  simp [freadBytes, hlen]

/-! ## Characterizations of the file-mode controller -/

theorem el_doc_fopen_rb_spec (st : ElState)
    (h1 : st.doc.fh_open = false) (h2 : st.fileExists = true) :
    el_doc_fopen st FMode.rb =
      (el_err_t.EL_OK,
        { st with doc := { st.doc with fmode := FMode.rb, fh_open := true },
                  filePos := 0, eofFlag := false }) := by
  simp [el_doc_fopen, h1, h2]

theorem el_doc_fopen_rpb_spec (st : ElState)
    (h1 : st.doc.fh_open = false) (h2 : st.fileExists = true) :
    el_doc_fopen st FMode.rpb =
      (el_err_t.EL_OK,
        { st with doc := { st.doc with fmode := FMode.rpb, fh_open := true },
                  filePos := 0, eofFlag := false }) := by
  simp [el_doc_fopen, h1, h2]

theorem el_doc_fopen_apb_spec (st : ElState)
    (h1 : st.doc.fh_open = false) (h2 : st.fileExists = true) :
    el_doc_fopen st FMode.apb =
      (el_err_t.EL_OK,
        { st with doc := { st.doc with fmode := FMode.apb, fh_open := true },
                  filePos := 0, eofFlag := false }) := by
  simp [el_doc_fopen, h1, h2]

theorem el_doc_fopen_already_open (st : ElState) (mode : FMode)
    (h1 : st.doc.fh_open = true) :
    el_doc_fopen st mode = (el_err_t.EL_ERROR_FILE, setErr st ElErrorMsg.alreadyOpen) := by
  simp [el_doc_fopen, h1]

theorem el_doc_fclose_open_spec (st : ElState) (h : st.doc.fh_open = true) :
    el_doc_fclose st = (el_err_t.EL_OK, { st with doc.fh_open := false }) := by
  simp [el_doc_fclose, h]

/-! ## Cell codec lemmas -/

theorem el_cell_write_bytes_length (c : el_cell_t)
    (h : c.field.type = 0 ∨ c.field.type = 1 ∨ c.field.type = 2) :
    (el_cell_write_bytes c).length = c.field.size_bytes := by
  obtain ⟨⟨t, sb, nm⟩, v⟩ := c
  rcases h with h | h | h <;> simp only at h <;> subst h <;>
    cases v <;> simp [el_cell_write_bytes, el_value_scalar_bytes, List.takeD_length]

theorem fieldCodecWF_types (f : el_field_def_t) (h : fieldCodecWF f = true) :
    f.type = 0 ∨ f.type = 1 ∨ f.type = 2 := by
  rw [fieldCodecWF, decide_eq_true_eq] at h
  rcases h with ⟨h, _⟩ | ⟨h, _⟩ | h <;> tauto

theorem el_cell_read_write_roundtrip (f : el_field_def_t) (old v : el_value)
    (hv : cellValueWF { field := f, value := v } = true) (hc : fieldCodecWF f = true) :
    el_cell_read_value f old (el_cell_write_bytes { field := f, value := v }) = v := by
  obtain ⟨t, sb, nm⟩ := f
  rw [fieldCodecWF, decide_eq_true_eq] at hc
  rcases hc with ⟨h1, h2⟩ | ⟨h1, h2⟩ | h1
  · simp only at h1 h2
    subst h1
    subst h2
    cases v with
    | integer z =>
        rw [cellValueWF] at hv
        simp only [decide_eq_true_eq] at hv
        have hb : el_cell_write_bytes { field := ⟨0, 4, nm⟩, value := .integer z } = encI32 z := by
          simp only [el_cell_write_bytes, el_value_scalar_bytes]
          exact takeD_eq_self 0 (encI32 z) 4 rfl
        rw [hb, el_cell_read_value]
        simp only
        rw [takeD_eq_self 0 (encI32 z) 4 rfl, decI32_encI32 z hv.1 hv.2]
    | number b => simp [cellValueWF] at hv
    | string s => simp [cellValueWF] at hv
  · simp only at h1 h2
    subst h1
    subst h2
    cases v with
    | integer z => simp [cellValueWF] at hv
    | number b =>
        rw [cellValueWF] at hv
        simp only [decide_eq_true_eq] at hv
        have hb : el_cell_write_bytes { field := ⟨1, 4, nm⟩, value := .number b } = encU32 b := by
          simp only [el_cell_write_bytes, el_value_scalar_bytes]
          exact takeD_eq_self 0 (encU32 b) 4 rfl
        rw [hb, el_cell_read_value]
        simp only
        rw [takeD_eq_self 0 (encU32 b) 4 rfl, decU32_encU32, Nat.mod_eq_of_lt hv]
    | string s => simp [cellValueWF] at hv
  · simp only at h1
    subst h1
    cases v with
    | integer z => simp [cellValueWF] at hv
    | number b => simp [cellValueWF] at hv
    | string s =>
        rw [cellValueWF] at hv
        simp only [decide_eq_true_eq] at hv
        have hb : el_cell_write_bytes { field := ⟨2, sb, nm⟩, value := .string s } = s := by
          simp only [el_cell_write_bytes]
          exact takeD_eq_self 0 s sb hv
        rw [hb, el_cell_read_value]
        simp only
        rw [takeD_eq_self 0 s sb hv]

/-! ## Row write-loop characterizations -/

theorem rowCellsBytes_len_core :
    ∀ cells : List el_cell_t,
      (∀ c ∈ cells, c.field.type = 0 ∨ c.field.type = 1 ∨ c.field.type = 2) →
      ((cells.map el_cell_write_bytes).flatten).length =
        ((cells.map (fun c => c.field.size_bytes)).sum) := by
  intro cells
  induction cells with
  | nil => intro _; rfl
  | cons c rest ih =>
      intro h
      simp only [List.map_cons, List.flatten_cons, List.length_append, List.sum_cons]
      rw [el_cell_write_bytes_length c (h c (by simp)), ih (fun x hx => h x (by simp [hx]))]

theorem rowBytes_length (doc : eld_handle_t) (row : el_row_t)
    (hwf : rowWF doc row = true)
    (hall : ((doc.field_defs.getD []).all fieldCodecWF) = true) :
    (rowBytes row).length = (((doc.field_defs.getD []).map (fun f => f.size_bytes)).sum) := by
  rw [rowWF] at hwf
  simp only [Bool.and_eq_true, decide_eq_true_eq, List.all_eq_true] at hwf
  obtain ⟨⟨hcount, hfields⟩, hvals⟩ := hwf
  have htake : row.cells.take row.cell_count = row.cells := by
    rw [hcount]
    exact List.take_length row.cells
  rw [rowBytes, htake]
  rw [rowCellsBytes_len_core row.cells (fun c hc => by
    apply fieldCodecWF_types
    have : c.field ∈ doc.field_defs.getD [] := by
      rw [← hfields]
      exact List.mem_map_of_mem (fun x => x.field) hc
    rw [List.all_eq_true] at hall
    exact hall c.field this)]
  have : row.cells.map (fun c => c.field.size_bytes) =
      (row.cells.map (fun c => c.field)).map (fun f => f.size_bytes) := by
    rw [List.map_map]
    rfl
  rw [this, hfields]

theorem el_doc_row_write_cells_apb :
    ∀ (cells : List el_cell_t) (st : ElState), st.doc.fmode = FMode.apb →
      el_doc_row_write_cells st cells =
        (el_err_t.EL_OK,
          { st with file := st.file ++ (cells.map el_cell_write_bytes).flatten,
                    filePos :=
                      if cells = [] then st.filePos
                      else st.file.length + ((cells.map el_cell_write_bytes).flatten).length }) := by
  intro cells
  induction cells with
  | nil => intro st h; simp [el_doc_row_write_cells]
  | cons c rest ih =>
      intro st h
      have hw : fwriteBytes st (el_cell_write_bytes c) =
          { st with file := st.file ++ el_cell_write_bytes c,
                    filePos := (st.file ++ el_cell_write_bytes c).length } := by
        simp [fwriteBytes, h]
      rw [el_doc_row_write_cells, hw,
        ih { st with file := st.file ++ el_cell_write_bytes c,
                     filePos := (st.file ++ el_cell_write_bytes c).length } (by simpa using h)]
      by_cases hr : rest = []
      · subst hr
        simp [List.length_append]
      · simp [hr, List.append_assoc, List.length_append, Nat.add_assoc]

theorem el_doc_row_write_cells_overwrite :
    ∀ (cells : List el_cell_t) (st : ElState), st.doc.fmode ≠ FMode.apb →
      st.filePos + ((cells.map el_cell_write_bytes).flatten).length ≤ st.file.length →
      el_doc_row_write_cells st cells =
        (el_err_t.EL_OK,
          { st with file := listOverwrite st.file st.filePos ((cells.map el_cell_write_bytes).flatten),
                    filePos := st.filePos + ((cells.map el_cell_write_bytes).flatten).length }) := by
  intro cells
  induction cells with
  | nil =>
      intro st h hlen
      have hid : listOverwrite st.file st.filePos [] = st.file := by
        rw [listOverwrite_of_le st.file st.filePos [] (by simpa using hlen)]
        simp
      simp [el_doc_row_write_cells, hid]
  | cons c rest ih =>
      intro st h hlen
      simp only [List.map_cons, List.flatten_cons, List.length_append] at hlen
      have hw : fwriteBytes st (el_cell_write_bytes c) =
          { st with file := listOverwrite st.file st.filePos (el_cell_write_bytes c),
                    filePos := st.filePos + (el_cell_write_bytes c).length } := by
        simp [fwriteBytes, h]
      have hlen1 : (listOverwrite st.file st.filePos (el_cell_write_bytes c)).length =
          st.file.length :=
        listOverwrite_length _ _ _ (by omega)
      rw [el_doc_row_write_cells, hw,
        ih { st with file := listOverwrite st.file st.filePos (el_cell_write_bytes c),
                     filePos := st.filePos + (el_cell_write_bytes c).length }
          (by simpa using h)
          (by
            show st.filePos + (el_cell_write_bytes c).length +
                ((rest.map el_cell_write_bytes).flatten).length ≤
              (listOverwrite st.file st.filePos (el_cell_write_bytes c)).length
            rw [hlen1]
            omega)]
      simp only [List.map_cons, List.flatten_cons]
      rw [listOverwrite_compose st.file st.filePos (el_cell_write_bytes c)
        ((rest.map el_cell_write_bytes).flatten) (by omega)]
      simp [List.length_append, Nat.add_assoc]

/-! ## Characterization of el_doc_save on an existing closed document -/

theorem el_doc_save_spec (st : ElState)
    (h1 : st.doc.fh_open = false) (h2 : st.fileExists = true)
    (hdefs : (st.doc.field_defs.getD []).length = st.doc.header.field_desc_count) :
    el_doc_save st =
      (el_err_t.EL_OK,
        { st with doc := { st.doc with fmode := FMode.rpb },
                  file := (encHeader st.doc.header ++ descTableBytes st.doc) ++
                    st.file.drop (15 + 24 * st.doc.header.field_desc_count),
                  filePos := 15 + 24 * st.doc.header.field_desc_count,
                  eofFlag := false }) := by
  have hD : (descTableBytes st.doc).length = 24 * st.doc.header.field_desc_count := by
    rw [descTableBytes_length st.doc hdefs]
    rfl
  have hfirst : listOverwrite st.file 0 (encHeader st.doc.header) =
      encHeader st.doc.header ++ st.file.drop 15 := by
    rw [listOverwrite_of_le _ _ _ (Nat.zero_le _)]
    simp [length_encHeader]
  have hsecond : listOverwrite (encHeader st.doc.header ++ st.file.drop 15) 15
        (descTableBytes st.doc) =
      (encHeader st.doc.header ++ descTableBytes st.doc) ++
        st.file.drop (15 + 24 * st.doc.header.field_desc_count) := by
    rw [listOverwrite_of_le _ 15 _ (by simp [length_encHeader, List.length_drop])]
    rw [take_append_len _ _ _ (length_encHeader st.doc.header)]
    have e1 : 15 + (descTableBytes st.doc).length =
        (encHeader st.doc.header).length + (descTableBytes st.doc).length := by
      rw [length_encHeader]
    rw [e1, List.drop_append, List.drop_drop, hD]
  have hdt : descTableBytes
      { fh_open := true, fmode := FMode.rpb, header := st.doc.header,
        field_defs := st.doc.field_defs } = descTableBytes st.doc := rfl
  simp only [el_doc_save, el_doc_fopen_rpb_spec st h1 h2, if_el_error]
  simp only [fwriteBytes, el_doc_fclose]
  simp [hdt, hfirst, hsecond, length_encHeader, hD, h1, List.append_assoc]

/-! ## Characterization of el_doc_row_add on a closed, persisted document -/

theorem el_doc_row_add_spec (st : ElState) (row : el_row_t)
    (h1 : st.doc.fh_open = false) (h2 : st.fileExists = true)
    (hdefs : (st.doc.field_defs.getD []).length = st.doc.header.field_desc_count)
    (hrc : st.doc.header.row_count + 1 < 4294967296) :
    (el_doc_row_add st row).1 = el_err_t.EL_OK ∧
    (el_doc_row_add st row).2.1.doc =
      { st.doc with fmode := FMode.apb,
                    header := { st.doc.header with
                                row_count := st.doc.header.row_count + 1 } } ∧
    (el_doc_row_add st row).2.1.fileExists = true ∧
    (el_doc_row_add st row).2.1.file =
      ((encHeader { st.doc.header with row_count := st.doc.header.row_count + 1 } ++
          descTableBytes st.doc) ++
        st.file.drop (15 + 24 * st.doc.header.field_desc_count)) ++ rowBytes row ∧
    (el_doc_row_add st row).2.1.errMsg = st.errMsg ∧
    (el_doc_row_add st row).2.1.reads = st.reads ∧
    (el_doc_row_add st row).2.2 = { row with index := st.doc.header.row_count } := by
  have hmod : (st.doc.header.row_count + 1) % 4294967296 = st.doc.header.row_count + 1 :=
    Nat.mod_eq_of_lt hrc
  simp only [el_doc_row_add, hmod]
  rw [el_doc_save_spec _ (by simpa using h1) (by simpa using h2) (by simpa using hdefs)]
  simp only [if_el_error]
  rw [el_doc_fopen_apb_spec _ (by simpa using h1) (by simpa using h2)]
  simp only [el_doc_row_write]
  rw [el_doc_row_write_cells_apb _ _ (by simp)]
  simp only [if_el_error, el_doc_fclose]
  refine ⟨rfl, ?_, by simpa using h2, ?_, rfl, rfl, rfl⟩
  · simp [h1]
  · simp [rowBytes, descTableBytes_update_rc, List.append_assoc]

/-! ## el_doc_row_add preserves the steady-state invariant -/

theorem rowWF_congr (d1 d2 : eld_handle_t) (row : el_row_t)
    (h : d1.field_defs = d2.field_defs) : rowWF d1 row = rowWF d2 row := by
  simp [rowWF, h]

theorem el_doc_row_add_inv (st : ElState) (row : el_row_t)
    (hI : DocIOInv st) (hrow : rowWF st.doc row = true)
    (hrc : st.doc.header.row_count + 1 < 4294967296) :
    (el_doc_row_add st row).1 = el_err_t.EL_OK ∧
    DocIOInv (el_doc_row_add st row).2.1 ∧
    (el_doc_row_add st row).2.1.doc.header =
      { st.doc.header with row_count := st.doc.header.row_count + 1 } ∧
    (el_doc_row_add st row).2.1.doc.field_defs = st.doc.field_defs ∧
    (el_doc_row_add st row).2.1.file.drop st.doc.header.header_len =
      st.file.drop st.doc.header.header_len ++ rowBytes row ∧
    (el_doc_row_add st row).2.2 = { row with index := st.doc.header.row_count } := by
  obtain ⟨h1, h2, hdefs, hcodec, hhl, hrl, hfl⟩ := hI
  obtain ⟨he, hd, hx, hf, hm, hr, hrow1⟩ := el_doc_row_add_spec st row h1 h2 hdefs hrc
  have hHL : st.doc.header.header_len = 15 + 24 * st.doc.header.field_desc_count := by
    rw [hhl]
    rfl
  have hRB : (rowBytes row).length = st.doc.header.row_len := by
    rw [rowBytes_length st.doc row hrow hcodec, hrl]
  have hD : (descTableBytes st.doc).length = 24 * st.doc.header.field_desc_count := by
    rw [descTableBytes_length st.doc hdefs]
    rfl
  have hpre15 : (encHeader { st.doc.header with row_count := st.doc.header.row_count + 1 } ++
      descTableBytes st.doc).length = st.doc.header.header_len := by
    simp [List.length_append, length_encHeader, hD, hHL]
  have hdroplen : (st.file.drop (15 + 24 * st.doc.header.field_desc_count)).length =
      st.file.length - st.doc.header.header_len := by
    rw [List.length_drop, hHL]
  have hregion : (el_doc_row_add st row).2.1.file.drop st.doc.header.header_len =
      st.file.drop st.doc.header.header_len ++ rowBytes row := by
    rw [hf, List.append_assoc]
    rw [drop_append_len _ _ _ hpre15]
    rw [hHL]
  have hflen2 : (el_doc_row_add st row).2.1.file.length =
      st.doc.header.header_len + st.doc.header.row_len * (st.doc.header.row_count + 1) := by
    rw [hf]
    simp only [List.length_append, length_encHeader, hD, hRB, List.length_drop]
    rw [hHL] at hfl ⊢
    have : 15 + 24 * st.doc.header.field_desc_count ≤ st.file.length := by
      rw [hfl]
      omega
    rw [Nat.mul_succ]
    omega
  refine ⟨he, ⟨?_, ?_, ?_, ?_, ?_, ?_, ?_⟩, ?_, ?_, hregion, hrow1⟩
  · rw [hd]
    simpa using h1
  · exact hx
  · rw [hd]
    simpa using hdefs
  · rw [hd]
    simpa using hcodec
  · rw [hd]
    simpa using hhl
  · rw [hd]
    simpa using hrl
  · rw [hflen2, hd]
  · simp [hd]
  · simp [hd]

/-- Appending a list of well-formed rows: the invariant is preserved, the
header advances by the number of rows, and the row region is extended by
exactly the rows' bytes in order. -/
theorem el_doc_row_add_all_spec :
    ∀ (rows : List el_row_t) (st : ElState), DocIOInv st →
      (∀ r ∈ rows, rowWF st.doc r = true) →
      st.doc.header.row_count + rows.length < 4294967296 →
      DocIOInv (el_doc_row_add_all st rows) ∧
      (el_doc_row_add_all st rows).doc.header =
        { st.doc.header with row_count := st.doc.header.row_count + rows.length } ∧
      (el_doc_row_add_all st rows).doc.field_defs = st.doc.field_defs ∧
      (el_doc_row_add_all st rows).file.drop st.doc.header.header_len =
        st.file.drop st.doc.header.header_len ++ (rows.map rowBytes).flatten := by
  intro rows
  induction rows with
  | nil =>
      intro st hI _ _
      refine ⟨hI, ?_, rfl, by simp [el_doc_row_add_all]⟩
      simp [el_doc_row_add_all]
  | cons r rest ih =>
      intro st hI hwf hbound
      obtain ⟨he, hI1, hhdr, hfd, hreg, _⟩ :=
        el_doc_row_add_inv st r hI (hwf r (by simp)) (by simp at hbound; omega)
      have hstep : el_doc_row_add_all st (r :: rest) =
          el_doc_row_add_all (el_doc_row_add st r).2.1 rest := by
        simp [el_doc_row_add_all]
      have hwf2 : ∀ x ∈ rest, rowWF (el_doc_row_add st r).2.1.doc x = true := by
        intro x hx
        rw [rowWF_congr _ st.doc x hfd]
        exact hwf x (by simp [hx])
      have hbound2 : (el_doc_row_add st r).2.1.doc.header.row_count + rest.length
          < 4294967296 := by
        rw [hhdr]
        simp at hbound ⊢
        omega
      obtain ⟨hI2, hhdr2, hfd2, hreg2⟩ := ih (el_doc_row_add st r).2.1 hI1 hwf2 hbound2
      have hHLeq : (el_doc_row_add st r).2.1.doc.header.header_len =
          st.doc.header.header_len := by
        rw [hhdr]
      refine ⟨by rwa [hstep], ?_, ?_, ?_⟩
      · rw [hstep, hhdr2, hhdr]
        simp [List.length_cons]
        omega
      · rw [hstep, hfd2, hfd]
      · rw [hHLeq] at hreg2
        rw [hstep, hreg2, hreg]
        simp [List.append_assoc]

/-! ## Characterization of the cell read loop -/

theorem el_row_read_cells_spec :
    ∀ (news origs : List el_cell_t) (st : ElState) (ri ci : ℕ),
      news.map (fun c => c.field) = origs.map (fun c => c.field) →
      (∀ c ∈ origs, cellValueWF c = true) →
      (∀ c ∈ origs, fieldCodecWF c.field = true) →
      (st.file.drop st.filePos).take ((origs.map el_cell_write_bytes).flatten).length =
        (origs.map el_cell_write_bytes).flatten →
      st.filePos + ((origs.map el_cell_write_bytes).flatten).length ≤ st.file.length →
      el_row_read_cells st news ri ci =
        (el_err_t.EL_OK,
          { st with filePos := st.filePos + ((origs.map el_cell_write_bytes).flatten).length,
                    eofFlag := if news = [] then st.eofFlag else false,
                    reads := st.reads + news.length },
          (news.zip origs).map (fun p => { p.1 with value := p.2.value })) := by
  intro news
  induction news with
  | nil =>
      intro origs st ri ci hfields _ _ _ _
      have : origs = [] := by
        cases origs with
        | nil => rfl
        | cons o os => simp at hfields
      subst this
      simp [el_row_read_cells]
  | cons n ns ih =>
      intro origs st ri ci hfields hvals hcodec hseg hbound
      cases origs with
      | nil => simp at hfields
      | cons o os =>
          simp only [List.map_cons, List.cons.injEq] at hfields
          obtain ⟨hfield, hfields2⟩ := hfields
          have hcwf : fieldCodecWF o.field = true := hcodec o (by simp)
          have hvwf : cellValueWF o = true := hvals o (by simp)
          have hlen_o : (el_cell_write_bytes o).length = o.field.size_bytes :=
            el_cell_write_bytes_length o (fieldCodecWF_types o.field hcwf)
          simp only [List.map_cons, List.flatten_cons, List.length_append] at hseg hbound
          have hread := freadBytes_spec st n.field.size_bytes
            (by rw [hfield, ← hlen_o]; omega)
          have hbytes : (st.file.drop st.filePos).take n.field.size_bytes =
              el_cell_write_bytes o := by
            rw [hfield, ← hlen_o]
            have h1 : ((st.file.drop st.filePos).take
                ((el_cell_write_bytes o).length +
                  ((os.map el_cell_write_bytes).flatten).length)).take
                  (el_cell_write_bytes o).length =
                (el_cell_write_bytes o ++ (os.map el_cell_write_bytes).flatten).take
                  (el_cell_write_bytes o).length := by
              rw [hseg]
            rw [List.take_take, Nat.min_eq_left (by omega),
              take_append_len _ _ _ rfl] at h1
            exact h1
          have hvalue : el_cell_read_value n.field n.value
              ((st.file.drop st.filePos).take n.field.size_bytes) = o.value := by
            rw [hbytes, hfield]
            have := el_cell_read_write_roundtrip o.field n.value o.value
              (by rcases o with ⟨f, v⟩; exact hvwf) hcwf
            rcases o with ⟨f, v⟩
            exact this
          have hrec := ih os
            { st with filePos := st.filePos + n.field.size_bytes,
                      eofFlag := false, reads := st.reads + 1 } ri (ci + 1)
            hfields2 (fun c hc => hvals c (by simp [hc])) (fun c hc => hcodec c (by simp [hc]))
            (by
              show ((st.file.drop (st.filePos + n.field.size_bytes)).take
                ((os.map el_cell_write_bytes).flatten).length) =
                (os.map el_cell_write_bytes).flatten
              have h2 : ((st.file.drop st.filePos).take
                  ((el_cell_write_bytes o).length +
                    ((os.map el_cell_write_bytes).flatten).length)).drop
                    (el_cell_write_bytes o).length =
                  (el_cell_write_bytes o ++ (os.map el_cell_write_bytes).flatten).drop
                    (el_cell_write_bytes o).length := by
                rw [hseg]
              rw [List.drop_take, List.drop_drop, drop_append_len _ _ _ rfl] at h2
              rw [hfield, ← hlen_o]
              have e1 : (el_cell_write_bytes o).length +
                  ((os.map el_cell_write_bytes).flatten).length -
                    (el_cell_write_bytes o).length =
                  ((os.map el_cell_write_bytes).flatten).length := by omega
              rw [e1] at h2
              exact h2)
            (by
              show st.filePos + n.field.size_bytes +
                  ((os.map el_cell_write_bytes).flatten).length ≤ st.file.length
              rw [hfield, ← hlen_o]
              omega)
          rw [hfield] at hread hvalue hrec
          rw [el_row_read_cells, hfield, hread]
          simp [hrec, hvalue, hlen_o, Nat.add_assoc]
          exact ⟨by omega, hfield.symm⟩

theorem zip_map_value_map :
    ∀ (xs ys : List el_cell_t), xs.length = ys.length →
      (((xs.zip ys).map (fun p => ({ p.1 with value := p.2.value } : el_cell_t))).map
        (fun c => c.value)) = ys.map (fun c => c.value) := by
  intro xs
  induction xs with
  | nil =>
      intro ys h
      cases ys with
      | nil => rfl
      | cons y t => simp at h
  | cons x xs2 ih =>
      intro ys h
      cases ys with
      | nil => simp at h
      | cons y t =>
          simp [ih t (by simpa using h)]

theorem map_field_mkcell (L : List el_field_def_t) :
    ((L.map (fun f => ({ field := f, value := (if f.type = 2 then el_value.string (List.replicate f.size_bytes 0) else el_value.integer 0) } : el_cell_t))).map
      (fun c => c.field)) = L := by
  induction L with
  | nil => rfl
  | cons f t ih => simp [ih]

/-- Characterization of el_row_read on a closed document whose file holds, at
the offset of row i, exactly the bytes of a well-formed original row. -/
theorem el_row_read_spec (st : ElState) (row origRow : el_row_t) (i : ℕ)
    (h1 : st.doc.fh_open = false) (h2 : st.fileExists = true)
    (hfields : (row.cells.take row.cell_count).map (fun c => c.field) =
      origRow.cells.map (fun c => c.field))
    (hvals : ∀ c ∈ origRow.cells, cellValueWF c = true)
    (hcodec : ∀ c ∈ origRow.cells, fieldCodecWF c.field = true)
    (hseg : (st.file.drop
        (st.doc.header.header_len + st.doc.header.row_len * i)).take
        ((origRow.cells.map el_cell_write_bytes).flatten).length =
      (origRow.cells.map el_cell_write_bytes).flatten)
    (hbound : st.doc.header.header_len + st.doc.header.row_len * i +
      ((origRow.cells.map el_cell_write_bytes).flatten).length ≤ st.file.length) :
    el_row_read st row i =
      (el_err_t.EL_OK,
        { st with doc := { st.doc with fmode := FMode.rb, fh_open := false },
                  filePos := st.doc.header.header_len + st.doc.header.row_len * i +
                    ((origRow.cells.map el_cell_write_bytes).flatten).length,
                  eofFlag := false,
                  reads := st.reads + (row.cells.take row.cell_count).length },
        { row with cells :=
            (((row.cells.take row.cell_count).zip origRow.cells).map
                (fun p => { p.1 with value := p.2.value }) ++
              row.cells.drop row.cell_count) }) := by
  have hcells := el_row_read_cells_spec (row.cells.take row.cell_count) origRow.cells
    { st with doc := { st.doc with fmode := FMode.rb, fh_open := true },
              filePos := st.doc.header.header_len + st.doc.header.row_len * i,
              eofFlag := false }
    i 0 hfields hvals hcodec (by simpa using hseg) (by simpa using hbound)
  have hseek :
      el_row_seek
        { st with doc := { st.doc with fmode := FMode.rb, fh_open := true },
                  filePos := 0, eofFlag := false } i =
      (true,
        { st with doc := { st.doc with fmode := FMode.rb, fh_open := true },
                  filePos := st.doc.header.header_len + st.doc.header.row_len * i,
                  eofFlag := false }) := rfl
  rw [el_row_read, el_doc_fopen_rb_spec st h1 h2]
  simp only [if_el_error]
  rw [hseek, hcells]
  simp [el_doc_fclose, if_el_error, Nat.add_assoc]

/-- Characterization of el_row_get on a steady-state document whose file
holds, at the offset of row i, exactly the bytes of a well-formed original
row: the returned row reproduces the original values cell by cell. -/
theorem el_row_get_spec (st : ElState) (origRow : el_row_t) (i : ℕ)
    (hI : DocIOInv st) (horig : rowWF st.doc origRow = true)
    (hi : i < st.doc.header.row_count)
    (hseg : (st.file.drop
        (st.doc.header.header_len + st.doc.header.row_len * i)).take
        st.doc.header.row_len = rowBytes origRow) :
    ∃ r2, (el_row_get st i).1 = some r2 ∧
      r2.cells.map (fun c => c.value) = origRow.cells.map (fun c => c.value) ∧
      r2.index = i := by
  obtain ⟨h1, h2, hdefs, hcodec, hhl, hrl, hfl⟩ := hI
  rw [rowWF] at horig
  simp only [Bool.and_eq_true, decide_eq_true_eq, List.all_eq_true] at horig
  obtain ⟨⟨hocount, hofields⟩, hovals⟩ := horig
  have hocodec : ∀ c ∈ origRow.cells, fieldCodecWF c.field = true := by
    intro c hc
    rw [List.all_eq_true] at hcodec
    exact hcodec c.field (by
      rw [← hofields]
      exact List.mem_map_of_mem (fun x => x.field) hc)
  have hotake : origRow.cells.take origRow.cell_count = origRow.cells := by
    rw [hocount]
    exact List.take_length origRow.cells
  have horb : rowBytes origRow = (origRow.cells.map el_cell_write_bytes).flatten := by
    rw [rowBytes, hotake]
  have hrblen : ((origRow.cells.map el_cell_write_bytes).flatten).length =
      st.doc.header.row_len := by
    rw [← horb, rowBytes_length st.doc origRow (by
      rw [rowWF]
      simp only [Bool.and_eq_true, decide_eq_true_eq, List.all_eq_true]
      exact ⟨⟨hocount, hofields⟩, hovals⟩) hcodec, hrl]
  have holen : origRow.cells.length = st.doc.header.field_desc_count := by
    have := congrArg List.length hofields
    simpa using this.trans hdefs
  have hcells_eq : ({ el_row_new st.doc with index := i } : el_row_t).cells =
      ((st.doc.field_defs.getD []).take st.doc.header.field_desc_count).map
        (fun f => ({ field := f, value := (if f.type = 2 then el_value.string (List.replicate f.size_bytes 0) else el_value.integer 0) } : el_cell_t)) := rfl
  have hcc : ({ el_row_new st.doc with index := i } : el_row_t).cell_count =
      st.doc.header.field_desc_count := rfl
  have htakedefs : (st.doc.field_defs.getD []).take st.doc.header.field_desc_count =
      st.doc.field_defs.getD [] := by
    rw [← hdefs]
    exact List.take_length _
  have hnlen : ({ el_row_new st.doc with index := i } : el_row_t).cells.length =
      st.doc.header.field_desc_count := by
    rw [hcells_eq, List.length_map, htakedefs, hdefs]
  have hntake : ({ el_row_new st.doc with index := i } : el_row_t).cells.take
      ({ el_row_new st.doc with index := i } : el_row_t).cell_count =
      ({ el_row_new st.doc with index := i } : el_row_t).cells := by
    rw [hcc, ← hnlen]
    exact List.take_length _
  have hnfields : (({ el_row_new st.doc with index := i } : el_row_t).cells.take
      ({ el_row_new st.doc with index := i } : el_row_t).cell_count).map
        (fun c => c.field) = origRow.cells.map (fun c => c.field) := by
    rw [hntake, hcells_eq, htakedefs, map_field_mkcell, hofields]
  have hbound2 : st.doc.header.header_len + st.doc.header.row_len * i +
      ((origRow.cells.map el_cell_write_bytes).flatten).length ≤ st.file.length := by
    rw [hrblen, hfl]
    have hmul : st.doc.header.row_len * i + st.doc.header.row_len ≤
        st.doc.header.row_len * st.doc.header.row_count := by
      have : st.doc.header.row_len * (i + 1) ≤
          st.doc.header.row_len * st.doc.header.row_count :=
        Nat.mul_le_mul_left _ hi
      rw [Nat.mul_succ] at this
      exact this
    omega
  have hseg2 : (st.file.drop
      (st.doc.header.header_len + st.doc.header.row_len * i)).take
      ((origRow.cells.map el_cell_write_bytes).flatten).length =
      (origRow.cells.map el_cell_write_bytes).flatten := by
    rw [hrblen, hseg, horb]
  have hread := el_row_read_spec st { el_row_new st.doc with index := i } origRow i
    h1 h2 hnfields hovals hocodec hseg2 hbound2
  rw [el_row_get, if_neg (by omega : ¬ i ≥ st.doc.header.row_count)]
  simp only [hread, if_el_error]
  refine ⟨_, rfl, ?_, rfl⟩
  have hdrop : ({ el_row_new st.doc with index := i } : el_row_t).cells.drop
      ({ el_row_new st.doc with index := i } : el_row_t).cell_count = [] := by
    rw [hcc, ← hnlen]
    exact List.drop_length _
  simp only [hdrop, List.append_nil]
  exact zip_map_value_map _ _ (by rw [hntake, hnlen, holen])

theorem takeD_eq {α : Type} (d : α) :
    ∀ (n : ℕ) (l : List α), List.takeD n l d = l.take n ++ List.replicate (n - l.length) d := by
  intro n
  induction n with
  | zero => intro l; simp
  | succ m ih =>
      intro l
      cases l with
      | nil => simp [List.replicate_succ]
      | cons a t => simp [List.takeD_succ, ih t]

theorem getD_replicate_zero (n i : ℕ) : (List.replicate n (0 : ℕ)).getD i 0 = 0 := by
  rcases Nat.lt_or_ge i n with h | h
  · rw [List.getD_eq_getElem?_getD, List.getElem?_replicate, if_pos h]
    rfl
  · exact List.getD_eq_default _ _ (by simpa using h)

/-- Characterization of el_doc_header_read: it always returns EL_OK, parses
the header from the 15 bytes at the current position (zero-filled on a short
read), allocates exactly field_desc_count descriptor entries, and never
touches the file bytes. -/
theorem el_doc_header_read_spec (st : ElState) :
    (el_doc_header_read st).1 = el_err_t.EL_OK ∧
    (el_doc_header_read st).2.doc.header =
      decHeader (((st.file.drop st.filePos).take 15).takeD 15 0) ∧
    ((el_doc_header_read st).2.doc.field_defs.getD []).length =
      (el_doc_header_read st).2.doc.header.field_desc_count ∧
    (el_doc_header_read st).2.file = st.file ∧
    (el_doc_header_read st).2.fileExists = st.fileExists ∧
    (el_doc_header_read st).2.doc.fh_open = st.doc.fh_open ∧
    (el_doc_header_read st).2.errMsg = st.errMsg := by
  refine ⟨rfl, rfl, ?_, rfl, rfl, rfl, rfl⟩
  have hdefs : ∃ f : ℕ → el_field_def_t, (el_doc_header_read st).2.doc.field_defs =
      some ((List.range (el_doc_header_read st).2.doc.header.field_desc_count).map f) :=
    ⟨_, rfl⟩
  obtain ⟨f, hf⟩ := hdefs
  rw [hf]
  simp [List.length_map, List.length_range]

/-! ## Claim theorems -/

/-- C1 counterexample: opening for read a well-formed empty document whose
magic bytes are "XYZ" (not "ELD") succeeds: el_doc_read returns EL_OK, and
the bogus magic is stored in the handle unchallenged.  This refutes the
claim that the magic bytes are validated and a file error signalled. -/
theorem claim_C1_counterexample :
    (el_doc_read stBadMagic).1 = el_err_t.EL_OK ∧
    (el_doc_read stBadMagic).2.doc.header.magic = [88, 89, 90] ∧
    [88, 89, 90] ≠ [69, 76, 68] := by decide

set_option maxHeartbeats 1000000 in
/-- C1 amended: el_doc_read performs no magic validation at all.  On any
closed handle whose document file exists it returns EL_OK regardless of the
magic bytes, storing the first three file bytes as the magic verbatim;
el_doc_header_read itself returns EL_OK unconditionally. -/
theorem claim_C1_amended (st : ElState)
    (h1 : st.doc.fh_open = false) (h2 : st.fileExists = true) :
    (el_doc_read st).1 = el_err_t.EL_OK ∧
    (el_doc_read st).2.doc.header.magic = ((st.file.take 15).takeD 15 0).take 3 ∧
    (el_doc_header_read st).1 = el_err_t.EL_OK := by
  obtain ⟨he, hh, _, _, _, ho, _⟩ := el_doc_header_read_spec
    { st with doc := { st.doc with fmode := FMode.rb, fh_open := true },
              filePos := 0, eofFlag := false }
  have hcl := el_doc_fclose_open_spec
    (el_doc_header_read
      { st with doc := { st.doc with fmode := FMode.rb, fh_open := true },
                filePos := 0, eofFlag := false }).2
    (by rw [ho])
  refine ⟨?_, ?_, (el_doc_header_read_spec st).1⟩
  · rw [el_doc_read, el_doc_fopen_rb_spec st h1 h2]
    simp only [if_el_error]
    rw [he]
    simp [hcl]
  · rw [el_doc_read, el_doc_fopen_rb_spec st h1 h2]
    simp only [if_el_error]
    rw [he]
    simp [hcl]
    rw [hh]
    simp [decHeader, List.drop_zero]

/-- C1 witness: the amended theorem applied to the concrete bad-magic
document. -/
theorem claim_C1_witness :
    (el_doc_read stBadMagic).1 = el_err_t.EL_OK ∧
    (el_doc_read stBadMagic).2.doc.header.magic =
      ((stBadMagic.file.take 15).takeD 15 0).take 3 ∧
    (el_doc_header_read stBadMagic).1 = el_err_t.EL_OK :=
  claim_C1_amended stBadMagic (by decide) (by decide)

/-- C2: a descriptor built by el_field_def_new with type INT or FLOAT and
declared length 1 has size_bytes = 4; the cell codec writes exactly 4 bytes
for any cell bound to such a descriptor, and reading such a cell consumes
exactly 4 file bytes (one fread call advancing the position by 4). -/
theorem claim_C2_scalar_cell_width (t : el_type_t) (name : List ℕ)
    (h : t = el_type_t.EL_FIELD_INT ∨ t = el_type_t.EL_FIELD_FLOAT) :
    (el_field_def_new t name 1).size_bytes = 4 ∧
    (∀ v : el_value,
      (el_cell_write_bytes { field := el_field_def_new t name 1, value := v }).length = 4) ∧
    (∀ (st : ElState) (v : el_value) (ri ci : ℕ), st.filePos + 4 ≤ st.file.length →
      (el_row_read_cells st [{ field := el_field_def_new t name 1, value := v }] ri ci).2.1.filePos =
        st.filePos + 4 ∧
      (el_row_read_cells st [{ field := el_field_def_new t name 1, value := v }] ri ci).2.1.reads =
        st.reads + 1) := by
  have hsb : (el_field_def_new t name 1).size_bytes = 4 := by
    rcases h with h | h <;> subst h <;> rfl
  have htp : (el_field_def_new t name 1).type = 0 ∨ (el_field_def_new t name 1).type = 1 := by
    rcases h with h | h <;> subst h
    · exact Or.inl rfl
    · exact Or.inr rfl
  refine ⟨hsb, ?_, ?_⟩
  · intro v
    rw [el_cell_write_bytes_length _ (by rcases htp with h2 | h2 <;> simp [h2])]
    exact hsb
  · intro st v ri ci hle
    have hsz : ({ field := el_field_def_new t name 1, value := v } : el_cell_t).field.size_bytes = 4 := hsb
    rw [el_row_read_cells, hsz, freadBytes_spec st 4 hle]
    simp [el_row_read_cells]

/-- C2 witness: the theorem applied to the INT type at a concrete 4-byte
file. -/
theorem claim_C2_witness :
    (el_field_def_new el_type_t.EL_FIELD_INT [] 1).size_bytes = 4 ∧
    (el_cell_write_bytes { field := el_field_def_new el_type_t.EL_FIELD_INT [] 1, value := el_value.integer 7 }).length = 4 ∧
    (el_row_read_cells stFourBytes [{ field := el_field_def_new el_type_t.EL_FIELD_INT [] 1, value := el_value.integer 0 }] 0 0).2.1.filePos = stFourBytes.filePos + 4 := by
  obtain ⟨a, b, c⟩ := claim_C2_scalar_cell_width el_type_t.EL_FIELD_INT [] (Or.inl rfl)
  exact ⟨a, b (el_value.integer 7), (c stFourBytes (el_value.integer 0) 0 0 (by decide)).1⟩

/-- C4 counterexample: on a document with row_count = 1, el_doc_field_add
succeeds (returns EL_OK) and mutates the schema, the header length and the
row length — refuting the claim that the mutation is rejected. -/
theorem claim_C4_counterexample :
    0 < stRow1.doc.header.row_count ∧
    (el_doc_field_add stRow1 fldInt).1 = el_err_t.EL_OK ∧
    (el_doc_field_add stRow1 fldInt).2.doc.header.field_desc_count = 2 ∧
    (el_doc_field_add stRow1 fldInt).2.doc.header.header_len = 63 ∧
    (el_doc_field_add stRow1 fldInt).2.doc.header.row_len = 8 := by decide

/-- C4 amended: el_doc_field_add never fails.  Even when row_count is
positive it returns EL_OK, appends the descriptor (uint8_t count), and
recomputes header_len and row_len; the row count itself is not touched.
The schema freeze the specification demands is not implemented. -/
theorem claim_C4_amended (st : ElState) (field : el_field_def_t)
    (h : 0 < st.doc.header.row_count) :
    (el_doc_field_add st field).1 = el_err_t.EL_OK ∧
    (el_doc_field_add st field).2.doc.header.field_desc_count =
      (st.doc.header.field_desc_count + 1) % 256 ∧
    (el_doc_field_add st field).2.doc.field_defs =
      some (((st.doc.field_defs.getD []) ++ [field]).take
        ((st.doc.header.field_desc_count + 1) % 256)) ∧
    (el_doc_field_add st field).2.doc.header.header_len =
      (24 * ((st.doc.header.field_desc_count + 1) % 256) + 15) % 65536 ∧
    (el_doc_field_add st field).2.doc.header.row_count = st.doc.header.row_count := by
  refine ⟨rfl, ?_, ?_, ?_, ?_⟩ <;>
    simp [el_doc_field_add, el_util_calc_header_len, el_util_calc_row_len,
      sizeof_el_field_def_t, sizeof_eld_header_t]

/-- C4 witness: the amended theorem applied to the one-row document. -/
theorem claim_C4_witness :
    (el_doc_field_add stRow1 fldInt).1 = el_err_t.EL_OK ∧
    (el_doc_field_add stRow1 fldInt).2.doc.header.field_desc_count =
      (stRow1.doc.header.field_desc_count + 1) % 256 ∧
    (el_doc_field_add stRow1 fldInt).2.doc.field_defs =
      some (((stRow1.doc.field_defs.getD []) ++ [fldInt]).take
        ((stRow1.doc.header.field_desc_count + 1) % 256)) ∧
    (el_doc_field_add stRow1 fldInt).2.doc.header.header_len =
      (24 * ((stRow1.doc.header.field_desc_count + 1) % 256) + 15) % 65536 ∧
    (el_doc_field_add stRow1 fldInt).2.doc.header.row_count =
      stRow1.doc.header.row_count :=
  claim_C4_amended stRow1 fldInt (by decide)

/-- C5 counterexample: in the default build (entrylogger.h has
EL_FIELD_NAME_LEN = 20) a 20-byte name is stored in full: its 20th byte
(index 19) is the 20th argument byte, not NUL — refuting the claim that
names are truncated to 19 bytes with the 20th byte always NUL. -/
theorem claim_C5_counterexample :
    (el_field_def_new el_type_t.EL_FIELD_INT (List.replicate 20 65) 1).name.getD 19 0 = 65 ∧
    (65 : ℕ) ≠ 0 := by decide

/-- C5 amended: the stored name buffer has 21 bytes; it holds at most the
first 20 bytes of the (NUL-truncated) argument, and the 21st byte (index
20) is always NUL.  The 19-byte/20th-byte figures of the claim hold only
for the MSDOS header entrylog.h, where EL_FIELD_NAME_LEN is 19. -/
theorem claim_C5_amended (t : el_type_t) (name : List ℕ) (len : ℕ) :
    (el_field_def_new t name len).name.length = 21 ∧
    (el_field_def_new t name len).name.getD 20 0 = 0 ∧
    (el_field_def_new t name len).name.take 20 =
      List.takeD 20 ((name.takeWhile (fun b => b ≠ 0)).take 20) 0 := by
  have hname : (el_field_def_new t name len).name =
      List.takeD 21 ((name.takeWhile (fun b => b ≠ 0)).take 20) 0 := rfl
  set L : List ℕ := (name.takeWhile (fun b => b ≠ 0)).take 20 with hLdef
  have hL : L.length ≤ 20 := by
    rw [hLdef]
    simp [List.length_take]
  have hL21 : L.take 21 = L := List.take_of_length_le (by omega)
  refine ⟨by rw [hname]; exact List.takeD_length _ _ _, ?_, ?_⟩
  · rw [hname, takeD_eq, hL21, List.getD_append_right _ _ _ _ (by omega)]
    exact getD_replicate_zero _ _
  · rw [hname, takeD_eq 0 21 L, hL21, List.take_append_eq_append_take,
      List.take_of_length_le hL, List.take_replicate, takeD_eq 0 20 L,
      List.take_of_length_le hL]
    congr 1
    congr 1
    omega

/-- C6: el_row_get with an index at or past row_count fails before touching
the file: it returns NULL, the whole state except the error sink is
unchanged (no file read is performed, the fread counter included), and the
recorded message names the out-of-range index and the row count. -/
theorem claim_C6_get_row_bounds (st : ElState) (i : ℕ)
    (h : st.doc.header.row_count ≤ i) :
    el_row_get st i =
      (none,
        { st with errMsg := some (ElErrorMsg.indexOutOfRange i st.doc.header.row_count) }) := by
  rw [el_row_get, if_pos (by omega)]
  rfl

/-- C6 witness: requesting row 3 of the one-row document. -/
theorem claim_C6_witness :
    stRow1.doc.header.row_count ≤ 3 ∧
    el_row_get stRow1 3 =
      (none,
        { stRow1 with errMsg := some (ElErrorMsg.indexOutOfRange 3 stRow1.doc.header.row_count) }) :=
  ⟨by decide, claim_C6_get_row_bounds stRow1 3 (by decide)⟩

/-- C10: el_doc_row_add stamps the row with the old row_count and increments
the in-memory count before any file operation; when the header save fails
(here: the handle was left open, so the reopen is rejected), the error is
returned with the incremented count still in place and the file untouched —
the in-memory state is not rolled back. -/
theorem claim_C10_row_add_no_rollback (st : ElState) (row : el_row_t)
    (h : st.doc.fh_open = true) :
    (el_doc_row_add st row).1 = el_err_t.EL_ERROR_FILE ∧
    (el_doc_row_add st row).2.2.index = st.doc.header.row_count ∧
    (el_doc_row_add st row).2.1.doc.header.row_count =
      (st.doc.header.row_count + 1) % 4294967296 ∧
    (el_doc_row_add st row).2.1.file = st.file ∧
    (el_doc_row_add st row).2.1.errMsg = some ElErrorMsg.alreadyOpen := by
  refine ⟨?_, ?_, ?_, ?_, ?_⟩ <;>
    simp [el_doc_row_add, el_doc_save, el_doc_fopen, h, if_el_error, setErr]

/-- C10 witness: the theorem applied to a handle left open. -/
theorem claim_C10_witness :
    (el_doc_row_add stOpen row123).1 = el_err_t.EL_ERROR_FILE ∧
    (el_doc_row_add stOpen row123).2.2.index = stOpen.doc.header.row_count ∧
    (el_doc_row_add stOpen row123).2.1.doc.header.row_count =
      (stOpen.doc.header.row_count + 1) % 4294967296 ∧
    (el_doc_row_add stOpen row123).2.1.file = stOpen.file ∧
    (el_doc_row_add stOpen row123).2.1.errMsg = some ElErrorMsg.alreadyOpen :=
  claim_C10_row_add_no_rollback stOpen row123 (by decide)

/-- C7: a successful el_doc_row_add on a persisted document leaves the file
at exactly header_len + row_len * row_count bytes, with row_count the
incremented post-operation value; the row bytes are appended at end of file
and the previous row region is preserved, not truncated. -/
theorem claim_C7_add_row_file_size (st : ElState) (row : el_row_t)
    (hI : DocIOInv st) (hrow : rowWF st.doc row = true)
    (hrc : st.doc.header.row_count + 1 < 4294967296) :
    (el_doc_row_add st row).1 = el_err_t.EL_OK ∧
    (el_doc_row_add st row).2.1.file.length =
      (el_doc_row_add st row).2.1.doc.header.header_len +
        (el_doc_row_add st row).2.1.doc.header.row_len *
          (el_doc_row_add st row).2.1.doc.header.row_count ∧
    (el_doc_row_add st row).2.1.doc.header.row_count = st.doc.header.row_count + 1 ∧
    (el_doc_row_add st row).2.1.file.drop st.doc.header.header_len =
      st.file.drop st.doc.header.header_len ++ rowBytes row := by
  obtain ⟨he, hI2, hhdr, hfd, hreg, _⟩ := el_doc_row_add_inv st row hI hrow hrc
  obtain ⟨_, _, _, _, _, _, hfl2⟩ := hI2
  refine ⟨he, hfl2, ?_, hreg⟩
  rw [hhdr]

/-- C7 witness: adding the row 123 to the persisted one-column document. -/
theorem claim_C7_witness :
    (el_doc_row_add st39 row123).1 = el_err_t.EL_OK ∧
    (el_doc_row_add st39 row123).2.1.file.length =
      (el_doc_row_add st39 row123).2.1.doc.header.header_len +
        (el_doc_row_add st39 row123).2.1.doc.header.row_len *
          (el_doc_row_add st39 row123).2.1.doc.header.row_count ∧
    (el_doc_row_add st39 row123).2.1.doc.header.row_count =
      st39.doc.header.row_count + 1 ∧
    (el_doc_row_add st39 row123).2.1.file.drop st39.doc.header.header_len =
      st39.file.drop st39.doc.header.header_len ++ rowBytes row123 :=
  claim_C7_add_row_file_size st39 row123 (by decide) (by decide) (by decide)

/-- C9: a successful el_doc_row_update on a row with index < row_count
modifies only the row_len bytes at offset header_len + row_len * index: the
total file size, every byte before the window (header block, descriptor
table, earlier rows) and every byte after it (later rows) are unchanged,
the window now holds exactly the row bytes, and the in-memory header is not
touched. -/
theorem claim_C9_update_in_place (st : ElState) (row : el_row_t)
    (hI : DocIOInv st) (hrow : rowWF st.doc row = true)
    (hidx : row.index < st.doc.header.row_count) :
    (el_doc_row_update st row).1 = el_err_t.EL_OK ∧
    (el_doc_row_update st row).2.file.length = st.file.length ∧
    (el_doc_row_update st row).2.file.take
        (st.doc.header.header_len + st.doc.header.row_len * row.index) =
      st.file.take (st.doc.header.header_len + st.doc.header.row_len * row.index) ∧
    (el_doc_row_update st row).2.file.drop
        (st.doc.header.header_len + st.doc.header.row_len * row.index +
          st.doc.header.row_len) =
      st.file.drop (st.doc.header.header_len + st.doc.header.row_len * row.index +
        st.doc.header.row_len) ∧
    ((el_doc_row_update st row).2.file.drop
        (st.doc.header.header_len + st.doc.header.row_len * row.index)).take
        st.doc.header.row_len = rowBytes row ∧
    (el_doc_row_update st row).2.doc.header = st.doc.header := by
  obtain ⟨h1, h2, hdefs, hcodec, hhl, hrl, hfl⟩ := hI
  have hRB : (rowBytes row).length = st.doc.header.row_len := by
    rw [rowBytes_length st.doc row hrow hcodec, hrl]
  have hmul : st.doc.header.row_len * row.index + st.doc.header.row_len ≤
      st.doc.header.row_len * st.doc.header.row_count := by
    have : st.doc.header.row_len * (row.index + 1) ≤
        st.doc.header.row_len * st.doc.header.row_count :=
      Nat.mul_le_mul_left _ hidx
    rw [Nat.mul_succ] at this
    exact this
  have hbound : st.doc.header.header_len + st.doc.header.row_len * row.index +
      (rowBytes row).length ≤ st.file.length := by
    rw [hRB, hfl]
    omega
  have hwf2 : rowWF st.doc row = true := hrow
  rw [rowWF] at hwf2
  simp only [Bool.and_eq_true, decide_eq_true_eq, List.all_eq_true] at hwf2
  obtain ⟨⟨hcount, _⟩, _⟩ := hwf2
  have htake : row.cells.take row.cell_count = row.cells := by
    rw [hcount]
    exact List.take_length row.cells
  have hflat : ((row.cells.take row.cell_count).map el_cell_write_bytes).flatten =
      rowBytes row := by
    rw [rowBytes]
  have hseek :
      el_row_seek
        { st with doc := { st.doc with fmode := FMode.rpb, fh_open := true },
                  filePos := 0, eofFlag := false } row.index =
      (true,
        { st with doc := { st.doc with fmode := FMode.rpb, fh_open := true },
                  filePos := st.doc.header.header_len +
                    st.doc.header.row_len * row.index,
                  eofFlag := false }) := rfl
  have hwrite := el_doc_row_write_cells_overwrite (row.cells.take row.cell_count)
    { st with doc := { st.doc with fmode := FMode.rpb, fh_open := true },
              filePos := st.doc.header.header_len +
                st.doc.header.row_len * row.index,
              eofFlag := false }
    (by simp)
    (by
      show st.doc.header.header_len + st.doc.header.row_len * row.index +
        (((row.cells.take row.cell_count).map el_cell_write_bytes).flatten).length ≤
        st.file.length
      rw [hflat]
      exact hbound)
  rw [el_doc_row_update, el_doc_fopen_rpb_spec st h1 h2]
  simp only [if_el_error]
  rw [hseek]
  simp only [el_doc_row_write]
  rw [hwrite]
  simp only [if_el_error, el_doc_fclose, hflat]
  have hp : st.doc.header.header_len + st.doc.header.row_len * row.index ≤
      st.file.length := by
    rw [hfl]
    omega
  have hdrop := listOverwrite_drop st.file
    (st.doc.header.header_len + st.doc.header.row_len * row.index) (rowBytes row) hp
  have hsg := listOverwrite_seg st.file
    (st.doc.header.header_len + st.doc.header.row_len * row.index) (rowBytes row) hp
  rw [hRB] at hdrop hsg
  exact ⟨by simp, listOverwrite_length _ _ _ hbound,
    listOverwrite_take _ _ _ _ (Nat.le_refl _) hp, hdrop, hsg, by simp⟩

/-- C9 witness: rewriting row 0 of the one-row document in place. -/
theorem claim_C9_witness :
    (el_doc_row_update stRow1 row123).1 = el_err_t.EL_OK ∧
    (el_doc_row_update stRow1 row123).2.file.length = stRow1.file.length ∧
    (el_doc_row_update stRow1 row123).2.file.take
        (stRow1.doc.header.header_len + stRow1.doc.header.row_len * row123.index) =
      stRow1.file.take
        (stRow1.doc.header.header_len + stRow1.doc.header.row_len * row123.index) ∧
    (el_doc_row_update stRow1 row123).2.file.drop
        (stRow1.doc.header.header_len + stRow1.doc.header.row_len * row123.index +
          stRow1.doc.header.row_len) =
      stRow1.file.drop
        (stRow1.doc.header.header_len + stRow1.doc.header.row_len * row123.index +
          stRow1.doc.header.row_len) ∧
    ((el_doc_row_update stRow1 row123).2.file.drop
        (stRow1.doc.header.header_len + stRow1.doc.header.row_len * row123.index)).take
        stRow1.doc.header.row_len = rowBytes row123 ∧
    (el_doc_row_update stRow1 row123).2.doc.header = stRow1.doc.header :=
  claim_C9_update_in_place stRow1 row123 (by decide) (by decide) (by decide)

theorem flatten_seg (n : ℕ) :
    ∀ (L : List (List ℕ)), (∀ l ∈ L, l.length = n) →
      ∀ (i : ℕ) (h : i < L.length),
        ((L.flatten).drop (n * i)).take n = L.get ⟨i, h⟩ := by
  intro L
  induction L with
  | nil =>
      intro _ i h
      simp at h
  | cons a t ih =>
      intro hL i h
      cases i with
      | zero =>
          simp only [Nat.mul_zero, List.drop_zero, List.flatten_cons]
          rw [take_append_len _ _ _ (hL a (by simp))]
          rfl
      | succ j =>
          simp only [List.flatten_cons]
          have e1 : n * (j + 1) = a.length + n * j := by
            rw [hL a (by simp)]
            ring
          rw [e1, List.drop_append]
          rw [ih (fun l hl => hL l (by simp [hl])) j (by simpa using h)]
          rfl

/-- C8: rows written through el_doc_row_add and read back through el_row_get
at the same index compare equal cell by cell: integer cells by integer
equality, float cells by bit-pattern equality, string cells by byte
equality of the whole zero-padded buffer (which subsumes equality up to the
first NUL). -/
theorem claim_C8_write_read_roundtrip (st : ElState) (rows : List el_row_t) (i : ℕ)
    (hI : DocIOInv st)
    (hrows : ∀ r ∈ rows, rowWF st.doc r = true)
    (hbound : st.doc.header.row_count + rows.length < 4294967296)
    (hi : i < rows.length) :
    ∃ r2, (el_row_get (el_doc_row_add_all st rows)
        (st.doc.header.row_count + i)).1 = some r2 ∧
      r2.cells.map (fun c => c.value) =
        (rows.get ⟨i, hi⟩).cells.map (fun c => c.value) ∧
      r2.index = st.doc.header.row_count + i := by
  obtain ⟨hI2, hhdr2, hfd2, hreg2⟩ := el_doc_row_add_all_spec rows st hI hrows hbound
  have hhl2 : (el_doc_row_add_all st rows).doc.header.header_len =
      st.doc.header.header_len := by rw [hhdr2]
  have hrl2 : (el_doc_row_add_all st rows).doc.header.row_len =
      st.doc.header.row_len := by rw [hhdr2]
  have hrc2 : (el_doc_row_add_all st rows).doc.header.row_count =
      st.doc.header.row_count + rows.length := by rw [hhdr2]
  obtain ⟨h1, h2, hdefs, hcodec, hhl, hrl, hfl⟩ := hI
  have horig : rowWF (el_doc_row_add_all st rows).doc (rows.get ⟨i, hi⟩) = true := by
    rw [rowWF_congr _ st.doc _ hfd2]
    exact hrows _ (List.get_mem rows i hi)
  have hil : st.doc.header.row_count + i <
      (el_doc_row_add_all st rows).doc.header.row_count := by
    rw [hrc2]
    omega
  have hlens : ∀ l ∈ rows.map rowBytes, l.length = st.doc.header.row_len := by
    intro l hl
    obtain ⟨r, hr, hrfl⟩ := List.mem_map.mp hl
    rw [← hrfl, rowBytes_length st.doc r (hrows r hr) hcodec, hrl]
  have hAlen : (st.file.drop st.doc.header.header_len).length =
      st.doc.header.row_len * st.doc.header.row_count := by
    rw [List.length_drop, hfl]
    omega
  have hseg : ((el_doc_row_add_all st rows).file.drop
      ((el_doc_row_add_all st rows).doc.header.header_len +
        (el_doc_row_add_all st rows).doc.header.row_len *
          (st.doc.header.row_count + i))).take
      (el_doc_row_add_all st rows).doc.header.row_len =
      rowBytes (rows.get ⟨i, hi⟩) := by
    rw [hhl2, hrl2]
    have e1 : st.doc.header.header_len +
        st.doc.header.row_len * (st.doc.header.row_count + i) =
        st.doc.header.header_len + (st.doc.header.row_len * st.doc.header.row_count +
          st.doc.header.row_len * i) := by
      rw [Nat.mul_add]
    rw [e1, ← List.drop_drop, hreg2]
    have e2 : st.doc.header.row_len * st.doc.header.row_count +
        st.doc.header.row_len * i =
        (st.file.drop st.doc.header.header_len).length +
          st.doc.header.row_len * i := by
      rw [hAlen]
    rw [e2, List.drop_append]
    rw [flatten_seg st.doc.header.row_len (rows.map rowBytes) hlens i (by simpa using hi)]
    rw [List.get_map]
  exact el_row_get_spec (el_doc_row_add_all st rows) (rows.get ⟨i, hi⟩)
    (st.doc.header.row_count + i) hI2 horig hil hseg

/-- C8 witness: one row written to the persisted one-column document and
read back at index 0. -/
theorem claim_C8_witness :
    ∃ r2, (el_row_get (el_doc_row_add_all st39 [row123])
        (st39.doc.header.row_count + 0)).1 = some r2 ∧
      r2.cells.map (fun c => c.value) =
        ([row123].get ⟨0, by decide⟩).cells.map (fun c => c.value) ∧
      r2.index = st39.doc.header.row_count + 0 :=
  claim_C8_write_read_roundtrip st39 [row123] 0 (by decide) (by decide) (by decide)
    (by decide)

/-! ## Helper lemmas for the operation-sequence invariant -/

theorem decHeader_encHeader (h : eld_header_t) (hWF : HdrWF h) :
    decHeader (encHeader h) = h := by
  obtain ⟨hm3, hk2, hhl, hrl, hfdl, hfdc, hrc⟩ := hWF
  obtain ⟨mg, hl, rl, fdl, cnt, rc, mk⟩ := h
  simp only at hm3 hk2 hhl hrl hfdl hfdc hrc
  obtain ⟨a, b, c, hm⟩ := List.length_eq_three.mp hm3
  obtain ⟨d, e, hk⟩ := List.length_eq_two.mp hk2
  subst hm
  subst hk
  simp [encHeader, decHeader, encU16, encU32, decU16, decU32, eld_header_t.mk.injEq]
  refine ⟨?_, ?_, ?_, ?_, ?_⟩ <;> omega

theorem listOverwrite_take15 (c : List ℕ) (p : ℕ) (b : List ℕ)
    (hp : 15 ≤ p) (hc : 15 ≤ c.length) :
    (listOverwrite c p b).take 15 = c.take 15 := by
  rw [listOverwrite]
  rw [List.take_append_of_le_length (by simp [List.length_take]; omega)]
  rw [List.take_append_of_le_length (by simp [List.length_take]; omega)]
  rw [List.take_append_of_le_length (by simp [List.length_take]; omega)]
  rw [List.take_take, Nat.min_eq_left hp]

theorem listOverwrite_length_ge (c : List ℕ) (p : ℕ) (b : List ℕ) :
    c.length ≤ (listOverwrite c p b).length := by
  simp [listOverwrite, List.length_append, List.length_take, List.length_drop,
    List.length_replicate]
  omega

theorem el_doc_row_write_cells_ok :
    ∀ (cells : List el_cell_t) (st : ElState),
      (el_doc_row_write_cells st cells).1 = el_err_t.EL_OK := by
  intro cells
  induction cells with
  | nil => intro st; rfl
  | cons c rest ih => intro st; rw [el_doc_row_write_cells]; exact ih _

theorem el_doc_row_write_cells_preserve :
    ∀ (cells : List el_cell_t) (st : ElState),
      (st.doc.fmode = FMode.apb ∨ 15 ≤ st.filePos) → 15 ≤ st.file.length →
      (el_doc_row_write_cells st cells).2.file.take 15 = st.file.take 15 ∧
      15 ≤ (el_doc_row_write_cells st cells).2.file.length ∧
      (el_doc_row_write_cells st cells).2.fileExists = st.fileExists ∧
      (el_doc_row_write_cells st cells).2.doc = st.doc ∧
      (el_doc_row_write_cells st cells).2.errMsg = st.errMsg := by
  intro cells
  induction cells with
  | nil => intro st _ hc; exact ⟨rfl, hc, rfl, rfl, rfl⟩
  | cons c rest ih =>
      intro st hp hc
      rw [el_doc_row_write_cells]
      rcases hp with hp | hp
      · have hw : fwriteBytes st (el_cell_write_bytes c) =
            { st with file := st.file ++ el_cell_write_bytes c,
                      filePos := (st.file ++ el_cell_write_bytes c).length } := by
          simp [fwriteBytes, hp]
        rw [hw]
        have hrec := ih { st with file := st.file ++ el_cell_write_bytes c,
                                  filePos := (st.file ++ el_cell_write_bytes c).length }
          (Or.inl (by simpa using hp)) (by simp [List.length_append]; omega)
        refine ⟨?_, hrec.2.1, hrec.2.2.1, hrec.2.2.2.1, hrec.2.2.2.2⟩
        rw [hrec.1]
        exact List.take_append_of_le_length hc
      · by_cases hm : st.doc.fmode = FMode.apb
        · have hw : fwriteBytes st (el_cell_write_bytes c) =
              { st with file := st.file ++ el_cell_write_bytes c,
                        filePos := (st.file ++ el_cell_write_bytes c).length } := by
            simp [fwriteBytes, hm]
          rw [hw]
          have hrec := ih { st with file := st.file ++ el_cell_write_bytes c,
                                    filePos := (st.file ++ el_cell_write_bytes c).length }
            (Or.inl (by simpa using hm)) (by simp [List.length_append]; omega)
          refine ⟨?_, hrec.2.1, hrec.2.2.1, hrec.2.2.2.1, hrec.2.2.2.2⟩
          rw [hrec.1]
          exact List.take_append_of_le_length hc
        · have hw : fwriteBytes st (el_cell_write_bytes c) =
              { st with file := listOverwrite st.file st.filePos (el_cell_write_bytes c),
                        filePos := st.filePos + (el_cell_write_bytes c).length } := by
            simp [fwriteBytes, hm]
          rw [hw]
          have hlen2 : 15 ≤ (listOverwrite st.file st.filePos (el_cell_write_bytes c)).length :=
            le_trans hc (listOverwrite_length_ge _ _ _)
          have hrec := ih { st with
              file := listOverwrite st.file st.filePos (el_cell_write_bytes c),
              filePos := st.filePos + (el_cell_write_bytes c).length }
            (Or.inr (by simp; omega)) (by simpa using hlen2)
          refine ⟨?_, hrec.2.1, hrec.2.2.1, hrec.2.2.2.1, hrec.2.2.2.2⟩
          rw [hrec.1]
          exact listOverwrite_take15 _ _ _ hp hc

theorem el_row_read_cells_frame :
    ∀ (cells : List el_cell_t) (st : ElState) (ri ci : ℕ),
      (el_row_read_cells st cells ri ci).2.1.file = st.file ∧
      (el_row_read_cells st cells ri ci).2.1.fileExists = st.fileExists ∧
      (el_row_read_cells st cells ri ci).2.1.doc = st.doc := by
  intro cells
  induction cells with
  | nil => intro st ri ci; exact ⟨rfl, rfl, rfl⟩
  | cons c rest ih =>
      intro st ri ci
      rw [el_row_read_cells]
      simp only [freadBytes]
      by_cases he : st.file.length - st.filePos < c.field.size_bytes
      · simp [he, setErr]
      · simp [he]
        exact ⟨(ih _ ri (ci + 1)).1, (ih _ ri (ci + 1)).2.1, (ih _ ri (ci + 1)).2.2⟩

theorem StInv_errMsg_only (st : ElState) (m : Option ElErrorMsg) (h : StInv st) :
    StInv { st with errMsg := m } := by
  obtain ⟨hMem, hFile⟩ := h
  exact ⟨hMem, hFile⟩

theorem el_doc_save_spec_create (st : ElState)
    (h1 : st.doc.fh_open = false) (h2 : st.fileExists = false) :
    el_doc_save st =
      (el_err_t.EL_OK,
        { st with doc := { st.doc with fmode := FMode.wb },
                  file := encHeader st.doc.header ++ descTableBytes st.doc,
                  fileExists := true,
                  filePos := 15 + (descTableBytes st.doc).length,
                  eofFlag := false,
                  errMsg := some ElErrorMsg.openFailed }) := by
  have hov1 : listOverwrite [] 0 (encHeader st.doc.header) = encHeader st.doc.header := by
    simp [listOverwrite]
  have hov2 : listOverwrite (encHeader st.doc.header) 15 (descTableBytes st.doc) =
      encHeader st.doc.header ++ descTableBytes st.doc := by
    rw [listOverwrite_of_le _ _ _ (by rw [length_encHeader])]
    rw [List.take_of_length_le (by rw [length_encHeader])]
    rw [List.drop_eq_nil_of_le (by rw [length_encHeader]; omega)]
    simp
  have hdt : descTableBytes
      { fh_open := true, fmode := FMode.wb, header := st.doc.header,
        field_defs := st.doc.field_defs } = descTableBytes st.doc := rfl
  simp [el_doc_save, el_doc_fopen, h1, h2, if_el_error, setErr, fwriteBytes,
    el_doc_fclose, hov1, hov2, hdt, length_encHeader]

/-! ## Remaining characterizations of el_doc_row_add -/

theorem el_doc_row_add_spec_mod (st : ElState) (row : el_row_t)
    (h1 : st.doc.fh_open = false) (h2 : st.fileExists = true)
    (hdefs : (st.doc.field_defs.getD []).length = st.doc.header.field_desc_count) :
    (el_doc_row_add st row).2.1.doc =
      { st.doc with fmode := FMode.apb,
                    header := { st.doc.header with
                      row_count := (st.doc.header.row_count + 1) % 4294967296 } } ∧
    (el_doc_row_add st row).2.1.fileExists = true ∧
    (el_doc_row_add st row).2.1.file =
      ((encHeader { st.doc.header with
            row_count := (st.doc.header.row_count + 1) % 4294967296 } ++
          descTableBytes st.doc) ++
        st.file.drop (15 + 24 * st.doc.header.field_desc_count)) ++ rowBytes row := by
  simp only [el_doc_row_add]
  rw [el_doc_save_spec _ (by simpa using h1) (by simpa using h2) (by simpa using hdefs)]
  simp only [if_el_error]
  rw [el_doc_fopen_apb_spec _ (by simpa using h1) (by simpa using h2)]
  simp only [el_doc_row_write]
  rw [el_doc_row_write_cells_apb _ _ (by simp)]
  simp only [if_el_error, el_doc_fclose]
  refine ⟨?_, by simpa using h2, ?_⟩
  · simp [h1]
  · simp [rowBytes, descTableBytes_update_rc, List.append_assoc]

theorem el_doc_row_add_spec_create (st : ElState) (row : el_row_t)
    (h1 : st.doc.fh_open = false) (h2 : st.fileExists = false) :
    (el_doc_row_add st row).2.1.doc =
      { st.doc with fmode := FMode.apb,
                    header := { st.doc.header with
                      row_count := (st.doc.header.row_count + 1) % 4294967296 } } ∧
    (el_doc_row_add st row).2.1.fileExists = true ∧
    (el_doc_row_add st row).2.1.file =
      (encHeader { st.doc.header with
            row_count := (st.doc.header.row_count + 1) % 4294967296 } ++
          descTableBytes st.doc) ++ rowBytes row := by
  simp only [el_doc_row_add]
  rw [el_doc_save_spec_create _ (by simpa using h1) (by simpa using h2)]
  simp only [if_el_error]
  rw [el_doc_fopen_apb_spec _ (by simpa using h1) (by simp)]
  simp only [el_doc_row_write]
  rw [el_doc_row_write_cells_apb _ _ (by simp)]
  simp only [if_el_error, el_doc_fclose]
  refine ⟨?_, by simp, ?_⟩
  · simp [h1]
  · simp [rowBytes, descTableBytes_update_rc, List.append_assoc]

/-! ## Frame lemmas for the invariant proof -/

theorem take15_front (h : eld_header_t) (l : List ℕ) :
    (encHeader h ++ l).take 15 = encHeader h :=
  take_append_len _ _ _ (length_encHeader h)

theorem FileInv_len (st : ElState) (h : eld_header_t)
    (ht : st.file.take 15 = encHeader h) : 15 ≤ st.file.length := by
  have h2 : (st.file.take 15).length = 15 := by rw [ht, length_encHeader]
  rw [List.length_take] at h2
  omega

theorem el_row_seek_fst (st : ElState) (i : ℕ) : (el_row_seek st i).1 = true := rfl

theorem el_row_read_cells_file (cells : List el_cell_t) (st : ElState) (ri ci : ℕ) :
    (el_row_read_cells st cells ri ci).2.1.file = st.file :=
  (el_row_read_cells_frame cells st ri ci).1

theorem el_row_read_cells_exists (cells : List el_cell_t) (st : ElState) (ri ci : ℕ) :
    (el_row_read_cells st cells ri ci).2.1.fileExists = st.fileExists :=
  (el_row_read_cells_frame cells st ri ci).2.1

theorem el_row_read_cells_doc (cells : List el_cell_t) (st : ElState) (ri ci : ℕ) :
    (el_row_read_cells st cells ri ci).2.1.doc = st.doc :=
  (el_row_read_cells_frame cells st ri ci).2.2

/-- el_row_read never changes the file bytes, the file existence flag, the
header, or the descriptor table of a closed, persisted document. -/
theorem el_row_read_frame (st : ElState) (row : el_row_t) (i : ℕ)
    (h1 : st.doc.fh_open = false) (h2 : st.fileExists = true) :
    (el_row_read st row i).2.1.file = st.file ∧
    (el_row_read st row i).2.1.fileExists = st.fileExists ∧
    (el_row_read st row i).2.1.doc.header = st.doc.header ∧
    (el_row_read st row i).2.1.doc.field_defs = st.doc.field_defs := by
  have hseek2 :
      (el_row_seek
        { st with doc := { st.doc with fmode := FMode.rb, fh_open := true },
                  filePos := 0, eofFlag := false } i).2 =
      { st with doc := { st.doc with fmode := FMode.rb, fh_open := true },
                filePos := st.doc.header.header_len + st.doc.header.row_len * i,
                eofFlag := false } := rfl
  obtain ⟨hq1, hq2, hq3⟩ := el_row_read_cells_frame (row.cells.take row.cell_count)
    { st with doc := { st.doc with fmode := FMode.rb, fh_open := true },
              filePos := st.doc.header.header_len + st.doc.header.row_len * i,
              eofFlag := false } i 0
  rw [el_row_read, el_doc_fopen_rb_spec st h1 h2]
  simp [if_el_error, el_row_seek_fst, hseek2]
  split
  · simp [hq1, hq2, hq3]
  · rw [el_doc_fclose_open_spec _ (by rw [hq3])]
    simp [hq1, hq2, hq3]

/-- el_doc_row_update on a closed, persisted document never changes the
first 15 file bytes, the file existence flag, the header, or the
descriptor table. -/
theorem el_doc_row_update_frame (st : ElState) (row : el_row_t)
    (h1 : st.doc.fh_open = false) (h2 : st.fileExists = true)
    (hhl : 15 ≤ st.doc.header.header_len) (hflen : 15 ≤ st.file.length) :
    (el_doc_row_update st row).2.file.take 15 = st.file.take 15 ∧
    (el_doc_row_update st row).2.fileExists = st.fileExists ∧
    (el_doc_row_update st row).2.doc.header = st.doc.header ∧
    (el_doc_row_update st row).2.doc.field_defs = st.doc.field_defs := by
  have hseek2 :
      (el_row_seek
        { st with doc := { st.doc with fmode := FMode.rpb, fh_open := true },
                  filePos := 0, eofFlag := false } row.index).2 =
      { st with doc := { st.doc with fmode := FMode.rpb, fh_open := true },
                filePos := st.doc.header.header_len + st.doc.header.row_len * row.index,
                eofFlag := false } := rfl
  obtain ⟨hw1, hw2, hw3, hw4, hw5⟩ := el_doc_row_write_cells_preserve
    (row.cells.take row.cell_count)
    { st with doc := { st.doc with fmode := FMode.rpb, fh_open := true },
              filePos := st.doc.header.header_len + st.doc.header.row_len * row.index,
              eofFlag := false }
    (Or.inr (by
      show 15 ≤ st.doc.header.header_len + st.doc.header.row_len * row.index
      omega))
    (by
      show 15 ≤ st.file.length
      exact hflen)
  have hok := el_doc_row_write_cells_ok (row.cells.take row.cell_count)
    { st with doc := { st.doc with fmode := FMode.rpb, fh_open := true },
              filePos := st.doc.header.header_len + st.doc.header.row_len * row.index,
              eofFlag := false }
  rw [el_doc_row_update, el_doc_fopen_rpb_spec st h1 h2]
  simp [if_el_error, el_row_seek_fst, hseek2, el_doc_row_write, hok]
  rw [el_doc_fclose_open_spec _ (by rw [hw4])]
  simp [hw1, hw3, hw4]

/-! ## The invariant is preserved by every supported operation -/

theorem elStep_inv (st : ElState) (op : ElOp) (hInv : StInv st) :
    StInv (elStep st op) := by
  obtain ⟨hMem, hFile⟩ := hInv
  obtain ⟨hWF, hP2, hdefs⟩ := hMem
  obtain ⟨hm3, hk2, hhl16, hrl16, hfdl8, hcnt8, hrc32⟩ := hWF
  obtain ⟨hfdl24, hP2e⟩ := hP2
  cases op with
  | fieldAdd f =>
      constructor
      · refine ⟨⟨?_, ?_, ?_, ?_, ?_, ?_, ?_⟩, ⟨?_, ?_⟩, ?_⟩ <;>
          simp only [elStep, el_doc_field_add, el_util_calc_header_len,
            el_util_calc_row_len, sizeof_el_field_def_t, sizeof_eld_header_t]
        · exact hm3
        · exact hk2
        · omega
        · omega
        · exact hfdl8
        · omega
        · exact hrc32
        · exact hfdl24
        · omega
        · simp only [Option.getD_some, List.length_take, List.length_append,
            List.length_cons, List.length_nil, hdefs]
          omega
      · intro hex
        have hex2 : st.fileExists = true := by
          simpa [elStep, el_doc_field_add, el_util_calc_header_len,
            el_util_calc_row_len] using hex
        obtain ⟨hs, hsWF, hsP2, hst⟩ := hFile hex2
        refine ⟨hs, hsWF, hsP2, ?_⟩
        simpa [elStep, el_doc_field_add, el_util_calc_header_len,
          el_util_calc_row_len] using hst
  | rowAdd r =>
      by_cases h1 : st.doc.fh_open = true
      · have hstep : elStep st (ElOp.rowAdd r) =
            { st with doc.header.row_count := (st.doc.header.row_count + 1) % 4294967296,
                      errMsg := some ElErrorMsg.alreadyOpen } := by
          simp [elStep, el_doc_row_add, el_doc_save, el_doc_fopen, h1, if_el_error, setErr]
        rw [hstep]
        exact ⟨⟨⟨hm3, hk2, hhl16, hrl16, hfdl8, hcnt8, Nat.mod_lt _ (by norm_num)⟩,
          ⟨hfdl24, hP2e⟩, hdefs⟩, hFile⟩
      · have h1f : st.doc.fh_open = false := by simpa using h1
        by_cases h2 : st.fileExists = true
        · obtain ⟨hdoc, hex, hfileq⟩ := el_doc_row_add_spec_mod st r h1f h2 hdefs
          simp only [elStep]
          refine ⟨⟨?_, ?_, ?_⟩, ?_⟩
          · rw [hdoc]
            exact ⟨hm3, hk2, hhl16, hrl16, hfdl8, hcnt8, Nat.mod_lt _ (by norm_num)⟩
          · rw [hdoc]
            exact ⟨hfdl24, hP2e⟩
          · rw [hdoc]
            exact hdefs
          · intro hx
            refine ⟨{ st.doc.header with
                row_count := (st.doc.header.row_count + 1) % 4294967296 },
              ⟨hm3, hk2, hhl16, hrl16, hfdl8, hcnt8, Nat.mod_lt _ (by norm_num)⟩,
              ⟨hfdl24, hP2e⟩, ?_⟩
            rw [hfileq, List.append_assoc, List.append_assoc]
            exact take15_front _ _
        · have h2f : st.fileExists = false := by simpa using h2
          obtain ⟨hdoc, hex, hfileq⟩ := el_doc_row_add_spec_create st r h1f h2f
          simp only [elStep]
          refine ⟨⟨?_, ?_, ?_⟩, ?_⟩
          · rw [hdoc]
            exact ⟨hm3, hk2, hhl16, hrl16, hfdl8, hcnt8, Nat.mod_lt _ (by norm_num)⟩
          · rw [hdoc]
            exact ⟨hfdl24, hP2e⟩
          · rw [hdoc]
            exact hdefs
          · intro hx
            refine ⟨{ st.doc.header with
                row_count := (st.doc.header.row_count + 1) % 4294967296 },
              ⟨hm3, hk2, hhl16, hrl16, hfdl8, hcnt8, Nat.mod_lt _ (by norm_num)⟩,
              ⟨hfdl24, hP2e⟩, ?_⟩
            rw [hfileq, List.append_assoc]
            exact take15_front _ _
  | rowUpdate r =>
      by_cases h1 : st.doc.fh_open = true
      · have hstep : elStep st (ElOp.rowUpdate r) = setErr st ElErrorMsg.alreadyOpen := by
          simp [elStep, el_doc_row_update, el_doc_fopen, h1, if_el_error]
        rw [hstep]
        exact ⟨⟨⟨hm3, hk2, hhl16, hrl16, hfdl8, hcnt8, hrc32⟩, ⟨hfdl24, hP2e⟩, hdefs⟩, hFile⟩
      · have h1f : st.doc.fh_open = false := by simpa using h1
        by_cases h2 : st.fileExists = true
        · obtain ⟨hs, hsWF, hsP2, htake⟩ := hFile h2
          have hflen : 15 ≤ st.file.length := FileInv_len st hs htake
          obtain ⟨hu1, hu2, hu3, hu4⟩ := el_doc_row_update_frame st r h1f h2 (by omega) hflen
          simp only [elStep]
          refine ⟨⟨?_, ?_, ?_⟩, ?_⟩
          · rw [hu3]
            exact ⟨hm3, hk2, hhl16, hrl16, hfdl8, hcnt8, hrc32⟩
          · rw [hu3]
            exact ⟨hfdl24, hP2e⟩
          · rw [hu4, hu3]
            exact hdefs
          · intro hx
            refine ⟨hs, hsWF, hsP2, ?_⟩
            rw [hu1]
            exact htake
        · have h2f : st.fileExists = false := by simpa using h2
          have hstep : elStep st (ElOp.rowUpdate r) =
              setErr { st with doc := { st.doc with fmode := FMode.rpb } }
                ElErrorMsg.openFailed := by
            simp [elStep, el_doc_row_update, el_doc_fopen, h1f, h2f, if_el_error]
          rw [hstep]
          exact ⟨⟨⟨hm3, hk2, hhl16, hrl16, hfdl8, hcnt8, hrc32⟩, ⟨hfdl24, hP2e⟩, hdefs⟩, hFile⟩
  | docSave =>
      by_cases h1 : st.doc.fh_open = true
      · have hstep : elStep st ElOp.docSave = setErr st ElErrorMsg.alreadyOpen := by
          simp [elStep, el_doc_save, el_doc_fopen, h1, if_el_error, setErr]
        rw [hstep]
        exact ⟨⟨⟨hm3, hk2, hhl16, hrl16, hfdl8, hcnt8, hrc32⟩, ⟨hfdl24, hP2e⟩, hdefs⟩, hFile⟩
      · have h1f : st.doc.fh_open = false := by simpa using h1
        by_cases h2 : st.fileExists = true
        · have hstate : elStep st ElOp.docSave =
              { st with doc := { st.doc with fmode := FMode.rpb },
                        file := (encHeader st.doc.header ++ descTableBytes st.doc) ++
                          st.file.drop (15 + 24 * st.doc.header.field_desc_count),
                        filePos := 15 + 24 * st.doc.header.field_desc_count,
                        eofFlag := false } := by
            simp only [elStep]
            rw [el_doc_save_spec st h1f h2 hdefs]
          rw [hstate]
          refine ⟨⟨⟨hm3, hk2, hhl16, hrl16, hfdl8, hcnt8, hrc32⟩, ⟨hfdl24, hP2e⟩, hdefs⟩, ?_⟩
          intro hx
          refine ⟨st.doc.header, ⟨hm3, hk2, hhl16, hrl16, hfdl8, hcnt8, hrc32⟩,
            ⟨hfdl24, hP2e⟩, ?_⟩
          show ((encHeader st.doc.header ++ descTableBytes st.doc) ++
            st.file.drop (15 + 24 * st.doc.header.field_desc_count)).take 15 =
            encHeader st.doc.header
          rw [List.append_assoc]
          exact take15_front _ _
        · have h2f : st.fileExists = false := by simpa using h2
          have hstate : elStep st ElOp.docSave =
              { st with doc := { st.doc with fmode := FMode.wb },
                        file := encHeader st.doc.header ++ descTableBytes st.doc,
                        fileExists := true,
                        filePos := 15 + (descTableBytes st.doc).length,
                        eofFlag := false,
                        errMsg := some ElErrorMsg.openFailed } := by
            simp only [elStep]
            rw [el_doc_save_spec_create st h1f h2f]
          rw [hstate]
          refine ⟨⟨⟨hm3, hk2, hhl16, hrl16, hfdl8, hcnt8, hrc32⟩, ⟨hfdl24, hP2e⟩, hdefs⟩, ?_⟩
          intro hx
          refine ⟨st.doc.header, ⟨hm3, hk2, hhl16, hrl16, hfdl8, hcnt8, hrc32⟩,
            ⟨hfdl24, hP2e⟩, ?_⟩
          show (encHeader st.doc.header ++ descTableBytes st.doc).take 15 =
            encHeader st.doc.header
          exact take15_front _ _
  | docRead =>
      by_cases h1 : st.doc.fh_open = true
      · have hstep : elStep st ElOp.docRead = setErr st ElErrorMsg.alreadyOpen := by
          simp [elStep, el_doc_read, el_doc_fopen, h1, if_el_error]
        rw [hstep]
        exact ⟨⟨⟨hm3, hk2, hhl16, hrl16, hfdl8, hcnt8, hrc32⟩, ⟨hfdl24, hP2e⟩, hdefs⟩, hFile⟩
      · have h1f : st.doc.fh_open = false := by simpa using h1
        by_cases h2 : st.fileExists = true
        · obtain ⟨hs, hsWF, hsP2, htake⟩ := hFile h2
          obtain ⟨hr1, hr2, hr3, hr4, hr5, hr6, hr7⟩ := el_doc_header_read_spec
            { st with doc := { st.doc with fmode := FMode.rb, fh_open := true },
                      filePos := 0, eofFlag := false }
          have hcl := el_doc_fclose_open_spec
            (el_doc_header_read
              { st with doc := { st.doc with fmode := FMode.rb, fh_open := true },
                        filePos := 0, eofFlag := false }).2
            (by rw [hr6])
          have hr2b : (el_doc_header_read
              { st with doc := { st.doc with fmode := FMode.rb, fh_open := true },
                        filePos := 0, eofFlag := false }).2.doc.header =
              decHeader (((st.file.drop 0).take 15).takeD 15 0) := hr2
          rw [List.drop_zero, htake,
            takeD_eq_self 0 (encHeader hs) 15 (length_encHeader hs),
            decHeader_encHeader hs hsWF] at hr2b
          have hstate : elStep st ElOp.docRead =
              { (el_doc_header_read
                  { st with doc := { st.doc with fmode := FMode.rb, fh_open := true },
                            filePos := 0, eofFlag := false }).2 with
                doc.fh_open := false } := by
            simp only [elStep]
            rw [el_doc_read, el_doc_fopen_rb_spec st h1f h2]
            simp only [if_el_error]
            rw [hr1]
            simp [hcl]
          have hhd : (elStep st ElOp.docRead).doc.header = hs := by
            rw [hstate]
            exact hr2b
          have hdl : ((elStep st ElOp.docRead).doc.field_defs.getD []).length =
              (elStep st ElOp.docRead).doc.header.field_desc_count := by
            rw [hstate]
            exact hr3
          have hfl2 : (elStep st ElOp.docRead).file = st.file := by
            rw [hstate]
            exact hr4
          refine ⟨⟨?_, ?_, hdl⟩, ?_⟩
          · rw [hhd]
            exact hsWF
          · rw [hhd]
            exact hsP2
          · intro hx
            refine ⟨hs, hsWF, hsP2, ?_⟩
            rw [hfl2]
            exact htake
        · have h2f : st.fileExists = false := by simpa using h2
          have hstep : elStep st ElOp.docRead =
              setErr { st with doc := { st.doc with fmode := FMode.rb } }
                ElErrorMsg.openFailed := by
            simp [elStep, el_doc_read, el_doc_fopen, h1f, h2f, if_el_error]
          rw [hstep]
          exact ⟨⟨⟨hm3, hk2, hhl16, hrl16, hfdl8, hcnt8, hrc32⟩, ⟨hfdl24, hP2e⟩, hdefs⟩, hFile⟩
  | getRow i =>
      by_cases hb : i ≥ st.doc.header.row_count
      · have hstep : elStep st (ElOp.getRow i) =
            setErr st (ElErrorMsg.indexOutOfRange i st.doc.header.row_count) := by
          simp [elStep, el_row_get, hb]
        rw [hstep]
        exact ⟨⟨⟨hm3, hk2, hhl16, hrl16, hfdl8, hcnt8, hrc32⟩, ⟨hfdl24, hP2e⟩, hdefs⟩, hFile⟩
      · by_cases h1 : st.doc.fh_open = true
        · have hstep : elStep st (ElOp.getRow i) = setErr st ElErrorMsg.alreadyOpen := by
            simp [elStep, el_row_get, hb, el_row_read, el_doc_fopen, h1, if_el_error]
          rw [hstep]
          exact ⟨⟨⟨hm3, hk2, hhl16, hrl16, hfdl8, hcnt8, hrc32⟩, ⟨hfdl24, hP2e⟩, hdefs⟩, hFile⟩
        · have h1f : st.doc.fh_open = false := by simpa using h1
          by_cases h2 : st.fileExists = true
          · have hstate : elStep st (ElOp.getRow i) =
                (el_row_read st { el_row_new st.doc with index := i } i).2.1 := by
              simp only [elStep, el_row_get]
              rw [if_neg hb]
              split
              · rfl
              · rfl
            obtain ⟨hf1, hf2, hf3, hf4⟩ :=
              el_row_read_frame st { el_row_new st.doc with index := i } i h1f h2
            rw [hstate]
            refine ⟨⟨?_, ?_, ?_⟩, ?_⟩
            · rw [hf3]
              exact ⟨hm3, hk2, hhl16, hrl16, hfdl8, hcnt8, hrc32⟩
            · rw [hf3]
              exact ⟨hfdl24, hP2e⟩
            · rw [hf4, hf3]
              exact hdefs
            · intro hx
              obtain ⟨hs, hsWF, hsP2, htake⟩ := hFile h2
              refine ⟨hs, hsWF, hsP2, ?_⟩
              rw [hf1]
              exact htake
          · have h2f : st.fileExists = false := by simpa using h2
            have hstep : elStep st (ElOp.getRow i) =
                setErr { st with doc := { st.doc with fmode := FMode.rb } }
                  ElErrorMsg.openFailed := by
              simp [elStep, el_row_get, hb, el_row_read, el_doc_fopen, h1f, h2f, if_el_error]
            rw [hstep]
            exact ⟨⟨⟨hm3, hk2, hhl16, hrl16, hfdl8, hcnt8, hrc32⟩, ⟨hfdl24, hP2e⟩, hdefs⟩, hFile⟩

theorem StInv_init : StInv elInitState := by
  constructor
  · refine ⟨⟨?_, ?_, ?_, ?_, ?_, ?_, ?_⟩, ⟨?_, ?_⟩, ?_⟩ <;> decide
  · intro hx
    exact absurd hx (by decide)

theorem elRun_inv (ops : List ElOp) : StInv (elRun ops) := by
  rw [elRun]
  have hfold : ∀ (l : List ElOp) (s : ElState), StInv s → StInv (l.foldl elStep s) := by
    intro l
    induction l with
    | nil => intro s hs; exact hs
    | cons o t ih =>
        intro s hs
        exact ih _ (elStep_inv s o hs)
  exact hfold ops elInitState StInv_init

/-- C3: after any sequence of supported document operations on a freshly
created handle (field additions, row additions, row updates, saves, reads
and row fetches), the header satisfies header_len = 15 + field_desc_len *
field_desc_count, where 15 is the width of the fixed on-disk header block. -/
theorem claim_C3_header_len_invariant (ops : List ElOp) :
    (elRun ops).doc.header.header_len =
      15 + (elRun ops).doc.header.field_desc_len *
        (elRun ops).doc.header.field_desc_count := by
  obtain ⟨⟨hWF, ⟨hfdl24, hP2e⟩, hlen⟩, hFile⟩ := elRun_inv ops
  rw [hP2e, hfdl24]

end ELD
